import Mathlib

/-!
# splat-transform: verification of the format-engine specification

Shallow embedding of the core data structures and algorithms of the
splat-transform repository (data table, filters, combine, transform
pipeline, Morton ordering, k-means with k-d tree assignment, compressed-PLY
chunk packing, `.splat` reading), together with theorems settling the
frozen claims about the natural-language specification.

Numeric model: JavaScript numbers are modelled as exact rationals, extended
with the non-finite values `NaN`, `+Infinity`, `-Infinity` where the code's
behaviour depends on them (filters, Morton extents); real-valued
computations involving square roots, logarithms and trigonometry are
modelled over `ℝ`.  Floating-point rounding is outside the model.
-/

namespace SplatTransform

/-- A JavaScript number as stored in a table column: an exact rational or
one of the three non-finite values. -/
inductive JVal where
  | num (q : ℚ)
  | nan
  | posInf
  | negInf
deriving DecidableEq, Repr

/-- JavaScript's `isFinite` on a number. -/
def JVal.isFinite : JVal → Bool
  | .num _ => true
  | _ => false

/-- Column element types (`data-table.ts` `ColumnType`). -/
inductive DType where
  | i8 | u8 | i16 | u16 | i32 | u32 | f32 | f64
deriving DecidableEq, Repr

/-- A named typed column (`data-table.ts` `Column`). -/
structure Column where
  name : String
  dtype : DType
  data : List JVal
deriving DecidableEq, Repr

/-- The `(name, element type)` key by which columns are matched. -/
def Column.key (c : Column) : String × DType := (c.name, c.dtype)

/-- A columnar table (`data-table.ts` `DataTable`). -/
structure Table where
  columns : List Column
deriving DecidableEq, Repr

/-- `DataTable.numRows`: the length of the first column (`columns[0].data.length`). -/
def Table.numRows (t : Table) : ℕ :=
  match t.columns with
  | [] => 0
  | c :: _ => c.data.length

/-- Well-formedness enforced by the `DataTable` constructor: at least one
column and all columns of identical length. -/
def Table.wf (t : Table) : Prop :=
  t.columns ≠ [] ∧ ∀ c ∈ t.columns, c.data.length = t.numRows

instance (t : Table) : Decidable t.wf := by
  unfold Table.wf; infer_instance

/-- Column names are pairwise distinct (spec §3 invariant (2)). -/
def Table.namesNodup (t : Table) : Prop :=
  (t.columns.map Column.name).Nodup

instance (t : Table) : Decidable t.namesNodup := by
  unfold Table.namesNodup; infer_instance

/-- A row dictionary: JavaScript object keys in insertion order. -/
abbrev Row := List (String × JVal)

/-- Assigning `row[k] = v` on a JavaScript object: overwrite the value of an
existing key in place, otherwise append the new key at the end. -/
def upsert (r : Row) (k : String) (v : JVal) : Row :=
  match r with
  | [] => [(k, v)]
  | (k', v') :: rest =>
    if k' = k then (k', v) :: rest else (k', v') :: upsert rest k v

/-- `DataTable.getRow`: build the row dictionary `{col.name → col.data[i]}`
by iterating the columns in order. -/
def Table.getRow (t : Table) (i : ℕ) : Row :=
  t.columns.foldl (fun r c => upsert r c.name (c.data.getD i (.num 0))) []

/-- A row predicate as passed to `DataTable.filter` (row index and row). -/
abbrev RowPred := ℕ → Row → Bool

/-- `Column.filter(length, flags)`: keep `data[i]` where `flags[i]` is set. -/
def Column.filterFlags (c : Column) (flags : List Bool) : Column :=
  ⟨c.name, c.dtype, (c.data.zip flags).filterMap
    (fun p => if p.2 then some p.1 else none)⟩

/-- `DataTable.filter(predicate)`: evaluate the predicate on every row into a
flag vector and count the passes; return `null` when the count is zero, the
table itself when the count equals the row count, and otherwise a new table
of filtered columns. -/
def Table.filter (t : Table) (p : RowPred) : Option Table :=
  if ((List.range t.numRows).map (fun i => p i (t.getRow i))).count true = 0 then
    none
  else if ((List.range t.numRows).map (fun i => p i (t.getRow i))).count true
      = t.numRows then
    some t
  else
    some ⟨t.columns.map (fun c =>
      c.filterFlags ((List.range t.numRows).map (fun i => p i (t.getRow i))))⟩

/-- The row indices a predicate keeps, in ascending order. -/
def keptRows (t : Table) (p : RowPred) : List ℕ :=
  (List.range t.numRows).filter (fun i => p i (t.getRow i))

-- ### helper lemmas on lists

theorem range_map_getD {α : Type} (l : List α) (d : α) :
    (List.range l.length).map (fun i => l.getD i d) = l := by
  apply List.ext_getElem
  · simp
  · intro i h1 h2
    simp only [List.getElem_map, List.getElem_range]
    rw [List.getD_eq_getElem l d (by simpa using h2)]

theorem zip_flags_filterMap {α : Type} (l : List α) (d : α) (f : ℕ → Bool) :
    (l.zip ((List.range l.length).map f)).filterMap
      (fun p => if p.2 then some p.1 else none)
    = ((List.range l.length).filter f).map (fun i => l.getD i d) := by
  induction l generalizing f with
  | nil => simp
  | cons a tl ih =>
    have hr : List.range (tl.length + 1) = 0 :: (List.range tl.length).map (· + 1) :=
      List.range_succ_eq_map tl.length
    simp only [List.length_cons, hr, List.map_cons, List.map_map, List.zip_cons_cons,
      List.filterMap_cons, List.filter_cons, List.filter_map, Function.comp_def,
      List.getD_cons_zero, List.getD_cons_succ, ih]
    by_cases h0 : f 0 <;> simp [h0]

theorem count_true_eq_zero (f : ℕ → Bool) (n : ℕ) :
    ((List.range n).map f).count true = 0 ↔ ∀ i < n, f i = false := by
  rw [List.count_eq_zero]
  constructor
  · intro h i hi
    by_contra hne
    exact h (by
      refine List.mem_map.mpr ⟨i, List.mem_range.mpr hi, ?_⟩
      simpa using hne)
  · intro h hmem
    obtain ⟨i, hi, hfi⟩ := List.mem_map.mp hmem
    have := h i (List.mem_range.mp hi)
    rw [this] at hfi
    exact Bool.false_ne_true hfi

theorem count_true_eq_len (f : ℕ → Bool) (n : ℕ) :
    ((List.range n).map f).count true = n ↔ ∀ i < n, f i = true := by
  have hlen : ((List.range n).map f).length = n := by simp
  constructor
  · intro h i hi
    have hall : ∀ b ∈ (List.range n).map f, true = b :=
      List.count_eq_length.mp (h.trans hlen.symm)
    exact (hall (f i) (List.mem_map.mpr ⟨i, List.mem_range.mpr hi, rfl⟩)).symm
  · intro h
    have hall : ∀ b ∈ (List.range n).map f, true = b := by
      intro b hb
      obtain ⟨i, hi, hfi⟩ := List.mem_map.mp hb
      rw [← hfi, h i (List.mem_range.mp hi)]
    exact (List.count_eq_length.mpr hall).trans hlen

theorem filterFlags_eq (t : Table) (p : RowPred) (c : Column)
    (hlen : c.data.length = t.numRows) :
    c.filterFlags ((List.range t.numRows).map (fun i => p i (t.getRow i)))
    = ⟨c.name, c.dtype, (keptRows t p).map (fun i => c.data.getD i (JVal.num 0))⟩ := by
  unfold Column.filterFlags keptRows
  rw [← hlen, zip_flags_filterMap]

theorem map_cols_id (t : Table) (g : Column → Column)
    (h : ∀ c ∈ t.columns, g c = c) : t.columns.map g = t.columns := by
  apply List.ext_getElem
  · simp
  · intro i h1 h2
    simp only [List.getElem_map]
    exact h _ (List.getElem_mem h2)

/-- General characterization of `DataTable.filter`, shared by the filter
action proofs. -/
theorem filter_spec_aux (t : Table) (p : RowPred) (hwf : t.wf) :
    (t.filter p = none ↔ ∀ i < t.numRows, p i (t.getRow i) = false)
    ∧ (0 < t.numRows →
        (∀ i < t.numRows, p i (t.getRow i) = true) → t.filter p = some t)
    ∧ (∀ t', t.filter p = some t' →
        t'.columns = t.columns.map (fun c =>
          ⟨c.name, c.dtype,
            (keptRows t p).map (fun i => c.data.getD i (JVal.num 0))⟩)) := by
  refine ⟨⟨?_, ?_⟩, ?_, ?_⟩
  · intro hnone
    by_cases h0 : ((List.range t.numRows).map
        (fun i => p i (t.getRow i))).count true = 0
    · exact (count_true_eq_zero _ _).mp h0
    · exfalso
      unfold Table.filter at hnone
      rw [if_neg h0] at hnone
      by_cases hn : ((List.range t.numRows).map
          (fun i => p i (t.getRow i))).count true = t.numRows
      · rw [if_pos hn] at hnone
        exact Option.some_ne_none _ hnone
      · rw [if_neg hn] at hnone
        exact Option.some_ne_none _ hnone
  · intro hall
    have h0 := (count_true_eq_zero (fun i => p i (t.getRow i)) _).mpr hall
    unfold Table.filter
    rw [if_pos h0]
  · intro hpos hall
    have hn := (count_true_eq_len (fun i => p i (t.getRow i)) _).mpr hall
    have h0 : ¬ ((List.range t.numRows).map
        (fun i => p i (t.getRow i))).count true = 0 := by
      rw [hn]; omega
    unfold Table.filter
    rw [if_neg h0, if_pos hn]
  · intro t' hsome
    unfold Table.filter at hsome
    by_cases h0 : ((List.range t.numRows).map
        (fun i => p i (t.getRow i))).count true = 0
    · rw [if_pos h0] at hsome
      exact absurd hsome.symm (Option.some_ne_none _)
    · rw [if_neg h0] at hsome
      by_cases hn : ((List.range t.numRows).map
          (fun i => p i (t.getRow i))).count true = t.numRows
      · have hall := (count_true_eq_len (fun i => p i (t.getRow i)) _).mp hn
        rw [if_pos hn] at hsome
        have ht' : t' = t := (Option.some_injective _ hsome).symm
        rw [ht']
        have hkept : keptRows t p = List.range t.numRows := by
          unfold keptRows
          exact List.filter_eq_self.mpr
            (fun i hi => by simpa using hall i (List.mem_range.mp hi))
        rw [hkept]
        refine (map_cols_id t _ (fun c hc => ?_)).symm
        have hl := hwf.2 c hc
        rw [← hl, range_map_getD]
      · rw [if_neg hn] at hsome
        have ht' : t' = ⟨t.columns.map (fun c =>
            c.filterFlags ((List.range t.numRows).map
              (fun i => p i (t.getRow i))))⟩ :=
          (Option.some_injective _ hsome).symm
        rw [ht']
        exact List.map_congr_left (fun c hc => filterFlags_eq t p c (hwf.2 c hc))

/-- C10 (amended): `DataTable.filter` returns `null` exactly when no row
satisfies the predicate; returns the very same table when it has at least
one row and every row satisfies; and any returned table consists of the
original columns restricted to the satisfying row indices in their original
order. -/
theorem dataTable_filter_spec (t : Table) (p : RowPred) (hwf : t.wf) :
    (t.filter p = none ↔ ∀ i < t.numRows, p i (t.getRow i) = false)
    ∧ (0 < t.numRows →
        (∀ i < t.numRows, p i (t.getRow i) = true) → t.filter p = some t)
    ∧ (∀ t', t.filter p = some t' →
        t'.columns = t.columns.map (fun c =>
          ⟨c.name, c.dtype,
            (keptRows t p).map (fun i => c.data.getD i (JVal.num 0))⟩)) :=
  filter_spec_aux t p hwf

/-- A table with one column and no rows: every row (vacuously) satisfies any
predicate, yet `filter` returns `null`. -/
def zeroRowTable : Table := ⟨[⟨"x", .f32, []⟩]⟩

/-- C10 counterexample: on the zero-row table, every row satisfies the
always-true predicate, but `filter` returns `none`, not the table itself. -/
theorem dataTable_filter_zero_rows :
    (∀ i < zeroRowTable.numRows,
      (fun _ _ => true : RowPred) i (zeroRowTable.getRow i) = true)
    ∧ zeroRowTable.filter (fun _ _ => true) = none
    ∧ zeroRowTable.filter (fun _ _ => true) ≠ some zeroRowTable := by
  refine ⟨?_, by decide, by decide⟩
  intro i hi
  simp [zeroRowTable, Table.numRows] at hi

/-- Concrete table and predicate exercising all branches of the C10 theorem. -/
def w10Table : Table := ⟨[⟨"x", .f32, [.num 1, .num 2]⟩]⟩

def w10Pred : RowPred := fun i _ => i == 0

theorem dataTable_filter_spec_witness :
    w10Table.wf
    ∧ ((w10Table.filter w10Pred = none ↔
          ∀ i < w10Table.numRows, w10Pred i (w10Table.getRow i) = false)
       ∧ (0 < w10Table.numRows →
            (∀ i < w10Table.numRows, w10Pred i (w10Table.getRow i) = true) →
            w10Table.filter w10Pred = some w10Table)
       ∧ (∀ t', w10Table.filter w10Pred = some t' →
            t'.columns = w10Table.columns.map (fun c =>
              ⟨c.name, c.dtype,
                (keptRows w10Table w10Pred).map
                  (fun i => c.data.getD i (JVal.num 0))⟩))) :=
  ⟨by decide, dataTable_filter_spec w10Table w10Pred (by decide)⟩

-- ### row dictionaries of tables with unique column names

theorem upsert_append (r : Row) (k : String) (v : JVal)
    (h : ∀ kv ∈ r, kv.1 ≠ k) : upsert r k v = r ++ [(k, v)] := by
  induction r with
  | nil => rfl
  | cons kv rest ih =>
    unfold upsert
    rw [if_neg (h kv (List.mem_cons_self kv rest))]
    rw [ih (fun kv' h' => h kv' (List.mem_cons_of_mem kv h'))]
    rfl

theorem foldl_upsert (cols : List Column) (i : ℕ) (r : Row)
    (hnd : (cols.map Column.name).Nodup)
    (hdisj : ∀ kv ∈ r, kv.1 ∉ cols.map Column.name) :
    cols.foldl (fun r c => upsert r c.name (c.data.getD i (.num 0))) r
    = r ++ cols.map (fun c => (c.name, c.data.getD i (.num 0))) := by
  induction cols generalizing r with
  | nil => simp
  | cons c rest ih =>
    simp only [List.map_cons, List.nodup_cons] at hnd
    simp only [List.foldl_cons]
    have hstep : upsert r c.name (c.data.getD i (.num 0))
        = r ++ [(c.name, c.data.getD i (.num 0))] :=
      upsert_append r _ _ (fun kv hkv => by
        have := hdisj kv hkv
        simp only [List.map_cons, List.mem_cons] at this
        exact fun he => this (Or.inl he))
    rw [hstep, ih _ hnd.2]
    · simp
    · intro kv hkv
      rcases List.mem_append.mp hkv with h1 | h2
      · have := hdisj kv h1
        simp only [List.map_cons, List.mem_cons] at this
        exact fun hm => this (Or.inr hm)
      · simp only [List.mem_singleton] at h2
        rw [h2]
        exact hnd.1

theorem getRow_eq_map (t : Table) (i : ℕ) (hnd : t.namesNodup) :
    t.getRow i = t.columns.map (fun c => (c.name, c.data.getD i (.num 0))) := by
  unfold Table.getRow
  rw [foldl_upsert t.columns i [] hnd (by simp)]
  rfl

-- ### the filterNaN action (`process.ts` case 'filterNaN')

/-- The `filterNaN` row predicate: `for key in row` return false on any
value failing `isFinite`. -/
def filterNaNPred : RowPred := fun _ row => row.all (fun kv => kv.2.isFinite)

/-- The `filterNaN` case of `process`: filter the table with the
all-values-finite predicate. -/
def filterNaNAction (t : Table) : Option Table := t.filter filterNaNPred

/-- Row `i` has a finite value in every column. -/
def rowAllFinite (t : Table) (i : ℕ) : Bool :=
  t.columns.all (fun c => (c.data.getD i (.num 0)).isFinite)

theorem filterNaNPred_eq (t : Table) (i : ℕ) (hnd : t.namesNodup) :
    filterNaNPred i (t.getRow i) = rowAllFinite t i := by
  unfold filterNaNPred rowAllFinite
  rw [getRow_eq_map t i hnd]
  induction t.columns with
  | nil => rfl
  | cons c rest ih => simp only [List.map_cons, List.all_cons, ih]

/-- C2 (amended): `filterNaN` drops exactly the rows containing any
non-finite column value, with no tolerances: rows whose opacity is `±∞` or
whose `scale_i` is `−∞` are dropped as well.  (`filter` returns no table
when every row is dropped.) -/
theorem filterNaN_spec (t : Table) (hwf : t.wf) (hnd : t.namesNodup) :
    (filterNaNAction t = none ↔ ∀ i < t.numRows, rowAllFinite t i = false)
    ∧ (∀ t', filterNaNAction t = some t' →
        t'.columns = t.columns.map (fun c =>
          ⟨c.name, c.dtype,
            ((List.range t.numRows).filter (fun i => rowAllFinite t i)).map
              (fun i => c.data.getD i (JVal.num 0))⟩)) := by
  obtain ⟨h1, _, h3⟩ := filter_spec_aux t filterNaNPred hwf
  unfold filterNaNAction
  constructor
  · rw [h1]
    constructor
    · intro h i hi
      rw [← filterNaNPred_eq t i hnd]
      exact h i hi
    · intro h i hi
      rw [filterNaNPred_eq t i hnd]
      exact h i hi
  · intro t' hsome
    rw [h3 t' hsome]
    have hkept : keptRows t filterNaNPred
        = (List.range t.numRows).filter (fun i => rowAllFinite t i) := by
      unfold keptRows
      exact List.filter_congr (fun i hi => filterNaNPred_eq t i hnd)
    rw [hkept]

/-- The E4 scenario table: 4 Gaussian splats, a NaN `x` in row 0 and an
opacity of `−∞` in row 1. -/
def e4Table : Table := ⟨[
  ⟨"x", .f32, [.nan, .num 1, .num 2, .num 3]⟩,
  ⟨"y", .f32, [.num 0, .num 0, .num 0, .num 0]⟩,
  ⟨"z", .f32, [.num 0, .num 0, .num 0, .num 0]⟩,
  ⟨"rot_0", .f32, [.num 1, .num 1, .num 1, .num 1]⟩,
  ⟨"rot_1", .f32, [.num 0, .num 0, .num 0, .num 0]⟩,
  ⟨"rot_2", .f32, [.num 0, .num 0, .num 0, .num 0]⟩,
  ⟨"rot_3", .f32, [.num 0, .num 0, .num 0, .num 0]⟩,
  ⟨"scale_0", .f32, [.num 0, .num 0, .num 0, .num 0]⟩,
  ⟨"scale_1", .f32, [.num 0, .num 0, .num 0, .num 0]⟩,
  ⟨"scale_2", .f32, [.num 0, .num 0, .num 0, .num 0]⟩,
  ⟨"f_dc_0", .f32, [.num 0, .num 0, .num 0, .num 0]⟩,
  ⟨"f_dc_1", .f32, [.num 0, .num 0, .num 0, .num 0]⟩,
  ⟨"f_dc_2", .f32, [.num 0, .num 0, .num 0, .num 0]⟩,
  ⟨"opacity", .f32, [.num 0, .negInf, .num 0, .num 0]⟩]⟩

/-- C2 counterexample: on the E4 table, `filterNaN` retains 2 rows — the
row with opacity `−∞` is dropped — not the 3 rows the claim states. -/
theorem filterNaN_e4_rows :
    (filterNaNAction e4Table).map Table.numRows = some 2
    ∧ (filterNaNAction e4Table).map Table.numRows ≠ some 3 := by
  constructor
  · rfl
  · intro h
    have h2 : (filterNaNAction e4Table).map Table.numRows = some 2 := rfl
    rw [h2] at h
    exact absurd (Option.some_injective _ h) (by omega)

theorem filterNaN_spec_witness :
    (e4Table.wf ∧ e4Table.namesNodup)
    ∧ ((filterNaNAction e4Table = none ↔
          ∀ i < e4Table.numRows, rowAllFinite e4Table i = false)
       ∧ (∀ t', filterNaNAction e4Table = some t' →
          t'.columns = e4Table.columns.map (fun c =>
            ⟨c.name, c.dtype,
              ((List.range e4Table.numRows).filter
                (fun i => rowAllFinite e4Table i)).map
                (fun i => c.data.getD i (JVal.num 0))⟩))) :=
  ⟨⟨by decide, by decide⟩, filterNaN_spec e4Table (by decide) (by decide)⟩

-- ### the filterByValue action (`process.ts` case 'filterByValue')

/-- The six comparators of `filterByValue`. -/
inductive Cmp where
  | lt | lte | gt | gte | eq | neq
deriving DecidableEq, Repr

/-- JavaScript `<` on numbers: any comparison involving NaN is false,
`-Infinity` is below and `+Infinity` above every finite number. -/
def jsLtB : JVal → JVal → Bool
  | .nan, _ => false
  | _, .nan => false
  | .num a, .num b => a < b
  | .num _, .posInf => true
  | .num _, .negInf => false
  | .posInf, _ => false
  | .negInf, .negInf => false
  | .negInf, _ => true

/-- JavaScript `<=` on numbers (false on NaN operands). -/
def jsLeB : JVal → JVal → Bool
  | .nan, _ => false
  | _, .nan => false
  | .num a, .num b => a ≤ b
  | .num _, .posInf => true
  | .num _, .negInf => false
  | .posInf, .posInf => true
  | .posInf, _ => false
  | .negInf, _ => true

/-- JavaScript `===` on numbers (`NaN === NaN` is false). -/
def jsEqB : JVal → JVal → Bool
  | .num a, .num b => a == b
  | .posInf, .posInf => true
  | .negInf, .negInf => true
  | _, _ => false

/-- Apply a comparator to `row[columnName]` (which is `undefined`, i.e.
`none`, when the column is missing) and the action value: every comparison
against `undefined` is false, so `!==` alone yields true. -/
def cmpApply (cmp : Cmp) (x : Option JVal) (v : JVal) : Bool :=
  match x with
  | none => match cmp with
    | .neq => true
    | _ => false
  | some a => match cmp with
    | .lt => jsLtB a v
    | .lte => jsLeB a v
    | .gt => jsLtB v a
    | .gte => jsLeB v a
    | .eq => jsEqB a v
    | .neq => !jsEqB a v

/-- JavaScript property access `row[columnName]` on a row dictionary. -/
def rowGet (row : Row) (k : String) : Option JVal :=
  (row.find? (fun kv => kv.1 == k)).map Prod.snd

/-- The `filterByValue` row predicate for a comparator. -/
def filterByValuePred (col : String) (cmp : Cmp) (v : JVal) : RowPred :=
  fun _ row => cmpApply cmp (rowGet row col) v

/-- The `filterByValue` case of `process`. -/
def filterByValueAction (col : String) (cmp : Cmp) (v : JVal) (t : Table) :
    Option Table :=
  t.filter (filterByValuePred col cmp v)

/-- `DataTable.hasColumn`. -/
def Table.hasColumn (t : Table) (name : String) : Bool :=
  t.columns.any (fun c => c.name == name)

/-- The value of the first column named `col` at row `i`, when one exists. -/
def colVal (t : Table) (col : String) (i : ℕ) : Option JVal :=
  (t.columns.find? (fun c => c.name == col)).map
    (fun c => c.data.getD i (.num 0))

theorem rowGet_getRow (t : Table) (col : String) (i : ℕ)
    (hnd : t.namesNodup) :
    rowGet (t.getRow i) col = colVal t col i := by
  unfold rowGet colVal
  rw [getRow_eq_map t i hnd, List.find?_map]
  have hp : ((fun kv : String × JVal => kv.1 == col) ∘
      (fun c : Column => (c.name, c.data.getD i (JVal.num 0))))
      = fun c : Column => c.name == col := rfl
  rw [hp]
  cases t.columns.find? (fun c : Column => c.name == col) <;> rfl

theorem filterByValuePred_eq (t : Table) (col : String) (cmp : Cmp)
    (v : JVal) (i : ℕ) (hnd : t.namesNodup) :
    filterByValuePred col cmp v i (t.getRow i)
    = cmpApply cmp (colVal t col i) v := by
  unfold filterByValuePred
  rw [rowGet_getRow t col i hnd]

theorem hasColumn_false_colVal (t : Table) (col : String)
    (h : t.hasColumn col = false) (i : ℕ) : colVal t col i = none := by
  unfold Table.hasColumn at h
  unfold colVal
  rw [List.find?_eq_none.mpr]
  · rfl
  · intro c hc
    have := List.any_eq_false.mp h c hc
    simpa using this

/-- C7 (amended): for an existing column, `filterByValue` drops exactly the
rows whose comparison against the value is false; for a missing column the
comparison against `undefined` is false for `lt,lte,gt,gte,eq` — dropping
every row, so no table is returned — while `neq` is true and keeps every
row. -/
theorem filterByValue_spec (t : Table) (col : String) (cmp : Cmp) (v : JVal)
    (hwf : t.wf) (hnd : t.namesNodup) :
    ((filterByValueAction col cmp v t = none ↔
        ∀ i < t.numRows, cmpApply cmp (colVal t col i) v = false)
      ∧ (∀ t', filterByValueAction col cmp v t = some t' →
          t'.columns = t.columns.map (fun c =>
            ⟨c.name, c.dtype,
              ((List.range t.numRows).filter
                (fun i => cmpApply cmp (colVal t col i) v)).map
                (fun i => c.data.getD i (JVal.num 0))⟩)))
    ∧ (t.hasColumn col = false →
        (cmp = .neq → 0 < t.numRows →
          filterByValueAction col cmp v t = some t)
        ∧ (cmp ≠ .neq → filterByValueAction col cmp v t = none)) := by
  obtain ⟨h1, h2, h3⟩ := filter_spec_aux t (filterByValuePred col cmp v) hwf
  unfold filterByValueAction
  refine ⟨⟨?_, ?_⟩, ?_⟩
  · rw [h1]
    constructor
    · intro h i hi
      rw [← filterByValuePred_eq t col cmp v i hnd]
      exact h i hi
    · intro h i hi
      rw [filterByValuePred_eq t col cmp v i hnd]
      exact h i hi
  · intro t' hsome
    rw [h3 t' hsome]
    have hkept : keptRows t (filterByValuePred col cmp v)
        = (List.range t.numRows).filter
            (fun i => cmpApply cmp (colVal t col i) v) := by
      unfold keptRows
      exact List.filter_congr
        (fun i hi => filterByValuePred_eq t col cmp v i hnd)
    rw [hkept]
  · intro hmiss
    constructor
    · intro hneq hpos
      refine h2 hpos (fun i hi => ?_)
      rw [filterByValuePred_eq t col cmp v i hnd,
        hasColumn_false_colVal t col hmiss i, hneq]
      rfl
    · intro hneq
      refine h1.mpr (fun i hi => ?_)
      rw [filterByValuePred_eq t col cmp v i hnd,
        hasColumn_false_colVal t col hmiss i]
      cases cmp with
      | neq => exact absurd rfl hneq
      | lt => rfl
      | lte => rfl
      | gt => rfl
      | gte => rfl
      | eq => rfl

/-- A one-row table with a single column `x`. -/
def xOnlyTable : Table := ⟨[⟨"x", .f32, [.num 0]⟩]⟩

/-- C7 counterexample: filtering on the missing column `y` with `lt` drops
every row (the result is no table at all), while the claim states all rows
are kept. -/
theorem filterByValue_missing_column :
    filterByValueAction "y" Cmp.lt (.num 5) xOnlyTable = none
    ∧ filterByValueAction "y" Cmp.lt (.num 5) xOnlyTable ≠ some xOnlyTable := by
  exact ⟨by decide, by decide⟩

theorem filterByValue_spec_witness :
    (xOnlyTable.wf ∧ xOnlyTable.namesNodup)
    ∧ (((filterByValueAction "y" Cmp.lt (.num 5) xOnlyTable = none ↔
          ∀ i < xOnlyTable.numRows,
            cmpApply Cmp.lt (colVal xOnlyTable "y" i) (.num 5) = false)
        ∧ (∀ t', filterByValueAction "y" Cmp.lt (.num 5) xOnlyTable = some t' →
            t'.columns = xOnlyTable.columns.map (fun c =>
              ⟨c.name, c.dtype,
                ((List.range xOnlyTable.numRows).filter
                  (fun i => cmpApply Cmp.lt (colVal xOnlyTable "y" i) (.num 5))).map
                  (fun i => c.data.getD i (JVal.num 0))⟩)))
       ∧ (xOnlyTable.hasColumn "y" = false →
          (Cmp.lt = .neq → 0 < xOnlyTable.numRows →
            filterByValueAction "y" Cmp.lt (.num 5) xOnlyTable = some xOnlyTable)
          ∧ (Cmp.lt ≠ .neq →
            filterByValueAction "y" Cmp.lt (.num 5) xOnlyTable = none))) :=
  ⟨⟨by decide, by decide⟩,
    filterByValue_spec xOnlyTable "y" Cmp.lt (.num 5) (by decide) (by decide)⟩

-- ### combine (`index.ts` combine)

/-- `findMatchingColumn`: the first column whose name and type both match. -/
def findMatchingColumn (cols : List Column) (c : Column) : Option Column :=
  cols.find? (fun x => x.name == c.name && x.dtype == c.dtype)

/-- One step of the unique-column construction: append the column unless a
`(name, type)` match is already present. -/
def addColumn (acc : List Column) (c : Column) : List Column :=
  if (findMatchingColumn acc c).isSome then acc else acc ++ [c]

/-- Fold one later table's columns into the unique column list. -/
def addTable (acc : List Column) (t : Table) : List Column :=
  t.columns.foldl addColumn acc

/-- The unique output column list of `combine`: every column of the first
table, then any column of a later table with no `(name, type)` match yet. -/
def unionColumns (ts : List Table) : List Column :=
  match ts with
  | [] => []
  | t :: rest => rest.foldl addTable t.columns

/-- `TypedArray.prototype.set(src, off)`: overwrite `dst` from offset `off`
with the whole of `src`. -/
def writeAt (dst : List JVal) (off : ℕ) (src : List JVal) : List JVal :=
  dst.take off ++ src ++ dst.drop (off + src.length)

/-- Copy one input column into the first matching output column at the given
row offset (`targetColumn.data.set(column.data, rowOffset)`). -/
def writeMatching (rcols : List Column) (c : Column) (off : ℕ) : List Column :=
  match rcols with
  | [] => []
  | r :: rs =>
    if r.name == c.name && r.dtype == c.dtype then
      ⟨r.name, r.dtype, writeAt r.data off c.data⟩ :: rs
    else
      r :: writeMatching rs c off

/-- Copy every column of one input table at the given row offset. -/
def copyStep (rcols : List Column) (t : Table) (off : ℕ) : List Column :=
  t.columns.foldl (fun rcols c => writeMatching rcols c off) rcols

/-- The copy loop of `combine`, threading the row offset over the inputs. -/
def copyGo (ts : List Table) (rcols : List Column) (off : ℕ) : List Column :=
  match ts with
  | [] => rcols
  | t :: rest => copyGo rest (copyStep rcols t off) (off + t.numRows)

/-- `combine`: a single table is returned unchanged; otherwise build the
first-seen `(name, type)` union, allocate zero-filled output columns of the
summed row count, and copy every input at its row offset. -/
def combine (ts : List Table) : Table :=
  match ts with
  | [t] => t
  | _ =>
    ⟨copyGo ts ((unionColumns ts).map (fun c =>
      ⟨c.name, c.dtype,
        List.replicate ((ts.map Table.numRows).sum) (JVal.num 0)⟩)) 0⟩

/-- Append a key unless already seen. -/
def addKey (acc : List (String × DType)) (k : String × DType) :
    List (String × DType) :=
  if k ∈ acc then acc else acc ++ [k]

/-- The `(name, type)` keys of all input columns in first-seen order — the
claim's description of the output column set. -/
def firstSeenKeys (ts : List Table) : List (String × DType) :=
  ((ts.map (fun t => t.columns.map Column.key)).flatten).foldl addKey []

/-- The first column of a table carrying a given `(name, type)` key. -/
def lookupKey (t : Table) (k : String × DType) : Option Column :=
  t.columns.find? (fun c => c.key == k)

/-- Column `(name, type)` keys are pairwise distinct in a table. -/
def tableKeysNodup (t : Table) : Prop := (t.columns.map Column.key).Nodup

instance (t : Table) : Decidable (tableKeysNodup t) := by
  unfold tableKeysNodup; infer_instance

/-- The sub-list of `l` of length `n` starting at offset `off`. -/
def extract (l : List JVal) (off n : ℕ) : List JVal := (l.drop off).take n

/-- The row offset of input `i`: the summed row counts of earlier inputs. -/
def rowOffset (ts : List Table) (i : ℕ) : ℕ :=
  ((ts.take i).map Table.numRows).sum

/-- The expected contents of the output column with key `k`: each input
contributes its matching column's data, or zeros when it has no match. -/
def expectedData (ts : List Table) (k : String × DType) : List JVal :=
  (ts.map (fun t =>
    match lookupKey t k with
    | some c => c.data
    | none => List.replicate t.numRows (JVal.num 0))).flatten

/-- Sequentially write each input's matching column (if any) for key `k`
into a data buffer at the running row offset. -/
def writeData (ts : List Table) (k : String × DType) (d : List JVal)
    (off : ℕ) : List JVal :=
  match ts with
  | [] => d
  | t :: rest =>
    writeData rest k
      (match lookupKey t k with
       | some c => writeAt d off c.data
       | none => d) (off + t.numRows)

theorem matchKey_iff (x c : Column) :
    (x.name == c.name && x.dtype == c.dtype) = true ↔ x.key = c.key := by
  simp [Column.key, Prod.ext_iff]

theorem map_write_id (rs : List Column) (c : Column) (off : ℕ)
    (h : ∀ r ∈ rs, r.key ≠ c.key) :
    rs.map (fun r =>
      if r.key = c.key then ⟨r.name, r.dtype, writeAt r.data off c.data⟩
      else r) = rs := by
  induction rs with
  | nil => rfl
  | cons a tl ih =>
    simp only [List.map_cons]
    rw [if_neg (h a (List.mem_cons_self a tl)),
      ih (fun r hr => h r (List.mem_cons_of_mem a hr))]

theorem writeMatching_map (rcols : List Column) (c : Column) (off : ℕ)
    (hnd : (rcols.map Column.key).Nodup) :
    writeMatching rcols c off = rcols.map (fun r =>
      if r.key = c.key then ⟨r.name, r.dtype, writeAt r.data off c.data⟩
      else r) := by
  induction rcols with
  | nil => rfl
  | cons r rs ih =>
    simp only [List.map_cons, List.nodup_cons] at hnd
    unfold writeMatching
    by_cases h : (r.name == c.name && r.dtype == c.dtype) = true
    · rw [if_pos h]
      have hk := (matchKey_iff r c).mp h
      simp only [List.map_cons]
      rw [if_pos hk]
      have htl : ∀ x ∈ rs, x.key ≠ c.key := by
        intro x hx he
        exact hnd.1 (hk ▸ he ▸ List.mem_map_of_mem Column.key hx)
      rw [map_write_id rs c off htl]
    · rw [if_neg h]
      have hk : r.key ≠ c.key := fun he => h ((matchKey_iff r c).mpr he)
      simp only [List.map_cons]
      rw [if_neg hk, ih hnd.2]

theorem writeMatching_keys (rcols : List Column) (c : Column) (off : ℕ) :
    (writeMatching rcols c off).map Column.key = rcols.map Column.key := by
  induction rcols with
  | nil => rfl
  | cons r rs ih =>
    unfold writeMatching
    by_cases h : (r.name == c.name && r.dtype == c.dtype) = true
    · rw [if_pos h]; rfl
    · rw [if_neg h]
      simp only [List.map_cons, ih]

theorem copyCols_map (cols : List Column) (rcols : List Column) (off : ℕ)
    (hndr : (rcols.map Column.key).Nodup)
    (hndc : (cols.map Column.key).Nodup) :
    cols.foldl (fun rcols c => writeMatching rcols c off) rcols
    = rcols.map (fun r =>
        match cols.find? (fun x => x.key == r.key) with
        | some c => ⟨r.name, r.dtype, writeAt r.data off c.data⟩
        | none => r) := by
  induction cols generalizing rcols with
  | nil =>
    simp only [List.foldl_nil, List.find?_nil]
    exact (List.map_id' rcols).symm
  | cons c cs ih =>
    simp only [List.map_cons, List.nodup_cons] at hndc
    simp only [List.foldl_cons]
    rw [writeMatching_map rcols c off hndr]
    have hkeys : ((rcols.map (fun r =>
        if r.key = c.key then ⟨r.name, r.dtype, writeAt r.data off c.data⟩
        else r)).map Column.key) = rcols.map Column.key := by
      rw [List.map_map]
      apply List.map_congr_left
      intro r hr
      by_cases h : r.key = c.key
      · simp only [Function.comp, if_pos h]
        rfl
      · simp only [Function.comp, if_neg h]
    rw [ih _ (by rw [hkeys]; exact hndr) hndc.2, List.map_map]
    apply List.map_congr_left
    intro r hr
    simp only [Function.comp]
    by_cases hk : r.key = c.key
    · rw [if_pos hk]
      have hnone : cs.find? (fun x =>
          x.key == (⟨r.name, r.dtype, writeAt r.data off c.data⟩ : Column).key)
          = none := by
        apply List.find?_eq_none.mpr
        intro x hx
        simp only [beq_iff_eq]
        intro he
        have hxk : x.key = c.key := by
          rw [← hk]
          exact he
        exact hndc.1 (hxk ▸ List.mem_map_of_mem Column.key hx)
      rw [hnone]
      have hhead : (c :: cs).find? (fun x => x.key == r.key) = some c :=
        List.find?_cons_of_pos cs (by simp [hk])
      rw [hhead]
    · rw [if_neg hk]
      have hhead : (c :: cs).find? (fun x => x.key == r.key)
          = cs.find? (fun x => x.key == r.key) :=
        List.find?_cons_of_neg cs
          (by simp only [beq_iff_eq]; exact fun he => hk he.symm)
      rw [hhead]

theorem copyStep_map (rcols : List Column) (t : Table) (off : ℕ)
    (hndr : (rcols.map Column.key).Nodup) (hndt : tableKeysNodup t) :
    copyStep rcols t off = rcols.map (fun r =>
      match lookupKey t r.key with
      | some c => ⟨r.name, r.dtype, writeAt r.data off c.data⟩
      | none => r) :=
  copyCols_map t.columns rcols off hndr hndt

theorem copyStep_keys (rcols : List Column) (t : Table) (off : ℕ) :
    (copyStep rcols t off).map Column.key = rcols.map Column.key := by
  unfold copyStep
  induction t.columns generalizing rcols with
  | nil => rfl
  | cons c cs ih =>
    simp only [List.foldl_cons]
    rw [ih, writeMatching_keys]

theorem writeData_cons (t : Table) (rest : List Table) (k : String × DType)
    (d : List JVal) (off : ℕ) :
    writeData (t :: rest) k d off
    = writeData rest k
        (match lookupKey t k with
         | some c => writeAt d off c.data
         | none => d) (off + t.numRows) := rfl

theorem copyGo_map (ts : List Table) (rcols : List Column) (off : ℕ)
    (hts : ∀ t ∈ ts, tableKeysNodup t)
    (hndr : (rcols.map Column.key).Nodup) :
    copyGo ts rcols off = rcols.map (fun r =>
      ⟨r.name, r.dtype, writeData ts r.key r.data off⟩) := by
  induction ts generalizing rcols off with
  | nil =>
    unfold copyGo writeData
    exact (List.map_id' rcols).symm
  | cons t rest ih =>
    have hkey : ∀ r : Column,
        (match lookupKey t r.key with
         | some c => (⟨r.name, r.dtype, writeAt r.data off c.data⟩ : Column)
         | none => r).key = r.key := by
      intro r
      cases lookupKey t r.key <;> rfl
    unfold copyGo
    rw [copyStep_map rcols t off hndr (hts t (List.mem_cons_self t rest))]
    have h2 : (Column.key ∘ fun r =>
        match lookupKey t r.key with
        | some c => (⟨r.name, r.dtype, writeAt r.data off c.data⟩ : Column)
        | none => r) = fun r : Column => r.key := funext hkey
    rw [ih _ _ (fun x hx => hts x (List.mem_cons_of_mem t hx))
      (by rw [List.map_map, h2]; exact hndr)]
    rw [List.map_map]
    apply List.map_congr_left
    intro r hr
    simp only [Function.comp]
    rw [writeData_cons]
    cases hl : lookupKey t r.key <;> simp only [hl] <;> rfl

theorem writeAt_fit (pre src tl : List JVal) (h : src.length ≤ tl.length) :
    writeAt (pre ++ tl) pre.length src = pre ++ src ++ tl.drop src.length := by
  unfold writeAt
  rw [List.take_left, List.drop_append]

theorem writeData_zeros (ts : List Table) (k : String × DType)
    (pre : List JVal)
    (hwf : ∀ t ∈ ts, ∀ c ∈ t.columns, c.data.length = t.numRows) :
    writeData ts k
      (pre ++ List.replicate ((ts.map Table.numRows).sum) (JVal.num 0))
      pre.length
    = pre ++ expectedData ts k := by
  induction ts generalizing pre with
  | nil =>
    unfold writeData expectedData
    simp
  | cons t rest ih =>
    have hrest : ∀ x ∈ rest, ∀ c ∈ x.columns, c.data.length = x.numRows :=
      fun x hx => hwf x (List.mem_cons_of_mem t hx)
    rw [writeData_cons]
    have hsum : ((t :: rest).map Table.numRows).sum
        = t.numRows + ((rest.map Table.numRows)).sum := by simp
    cases hl : lookupKey t k with
    | some c =>
      have hlen : c.data.length = t.numRows :=
        hwf t (List.mem_cons_self t rest) c (List.mem_of_find?_eq_some hl)
      simp only [hl]
      rw [hsum, List.replicate_add]
      rw [writeAt_fit pre c.data _ (by simp [hlen])]
      have hdrop : (List.replicate t.numRows (JVal.num 0)
          ++ List.replicate ((rest.map Table.numRows).sum) (JVal.num 0)).drop
            c.data.length
          = List.replicate ((rest.map Table.numRows).sum) (JVal.num 0) := by
        rw [hlen]
        have hd := List.drop_left (List.replicate t.numRows (JVal.num 0))
          (List.replicate ((rest.map Table.numRows).sum) (JVal.num 0))
        rwa [List.length_replicate] at hd
      rw [hdrop]
      have hoff : pre.length + t.numRows = (pre ++ c.data).length := by
        simp [hlen]
      rw [hoff, ih (pre ++ c.data) hrest]
      unfold expectedData
      simp only [List.map_cons, List.flatten_cons, hl, List.append_assoc]
    | none =>
      simp only [hl]
      rw [hsum, List.replicate_add, ← List.append_assoc]
      have hoff : pre.length + t.numRows
          = (pre ++ List.replicate t.numRows (JVal.num 0)).length := by
        simp
      rw [hoff, ih _ hrest]
      unfold expectedData
      simp only [List.map_cons, List.flatten_cons, hl, List.append_assoc]

theorem expectedData_length (ts : List Table) (k : String × DType)
    (hwf : ∀ t ∈ ts, ∀ c ∈ t.columns, c.data.length = t.numRows) :
    (expectedData ts k).length = (ts.map Table.numRows).sum := by
  induction ts with
  | nil => rfl
  | cons t rest ih =>
    unfold expectedData
    simp only [List.map_cons, List.flatten_cons, List.length_append,
      List.sum_cons]
    have h1 : (match lookupKey t k with
        | some c => c.data
        | none => List.replicate t.numRows (JVal.num 0)).length = t.numRows := by
      cases hl : lookupKey t k with
      | some c =>
        exact hwf t (List.mem_cons_self t rest) c (List.mem_of_find?_eq_some hl)
      | none => simp
    rw [h1]
    have h2 := ih (fun x hx => hwf x (List.mem_cons_of_mem t hx))
    unfold expectedData at h2
    rw [h2]

theorem findMatching_isSome (acc : List Column) (c : Column) :
    (findMatchingColumn acc c).isSome = true ↔ c.key ∈ acc.map Column.key := by
  unfold findMatchingColumn
  rw [List.find?_isSome]
  constructor
  · rintro ⟨x, hx, hp⟩
    exact (matchKey_iff x c).mp hp ▸ List.mem_map_of_mem Column.key hx
  · intro hmem
    obtain ⟨x, hx, he⟩ := List.mem_map.mp hmem
    exact ⟨x, hx, (matchKey_iff x c).mpr he⟩

theorem addColumn_keys (acc : List Column) (c : Column) :
    (addColumn acc c).map Column.key = addKey (acc.map Column.key) c.key := by
  unfold addColumn addKey
  by_cases h : (findMatchingColumn acc c).isSome = true
  · rw [if_pos h, if_pos ((findMatching_isSome acc c).mp h)]
  · rw [if_neg h, if_neg (fun hm => h ((findMatching_isSome acc c).mpr hm))]
    simp

theorem addKey_nodup (acc : List (String × DType)) (k : String × DType)
    (h : acc.Nodup) : (addKey acc k).Nodup := by
  unfold addKey
  by_cases hm : k ∈ acc
  · rw [if_pos hm]; exact h
  · rw [if_neg hm]
    simp [List.nodup_append, h, hm]

theorem foldCols_keys (cols : List Column) (acc : List Column) :
    ((cols.foldl addColumn acc).map Column.key)
    = (cols.map Column.key).foldl addKey (acc.map Column.key) := by
  induction cols generalizing acc with
  | nil => rfl
  | cons c cs ih =>
    simp only [List.foldl_cons, List.map_cons]
    rw [ih, addColumn_keys]

theorem foldTables_keys (rest : List Table) (acc : List Column) :
    ((rest.foldl addTable acc).map Column.key)
    = (rest.map (fun t => t.columns.map Column.key)).foldl
        (fun a ks => ks.foldl addKey a) (acc.map Column.key) := by
  induction rest generalizing acc with
  | nil => rfl
  | cons t ts ih =>
    simp only [List.foldl_cons, List.map_cons]
    rw [ih]
    unfold addTable
    rw [foldCols_keys]

theorem keyFold_nodup (ks : List (String × DType))
    (acc : List (String × DType)) (h : acc.Nodup) :
    (ks.foldl addKey acc).Nodup := by
  induction ks generalizing acc with
  | nil => exact h
  | cons k kt ih => exact ih _ (addKey_nodup acc k h)

theorem union_keys_nodup (ts : List Table)
    (hts : ∀ t ∈ ts, tableKeysNodup t) :
    ((unionColumns ts).map Column.key).Nodup := by
  cases ts with
  | nil => simp [unionColumns]
  | cons t rest =>
    show ((rest.foldl addTable t.columns).map Column.key).Nodup
    rw [foldTables_keys, ← List.foldl_flatten addKey]
    exact keyFold_nodup _ _ (hts t (List.mem_cons_self t rest))

theorem keyFold_app (ks : List (String × DType))
    (acc : List (String × DType)) (hnd : ks.Nodup)
    (hdisj : ∀ k ∈ ks, k ∉ acc) :
    ks.foldl addKey acc = acc ++ ks := by
  induction ks generalizing acc with
  | nil => simp
  | cons k kt ih =>
    simp only [List.nodup_cons] at hnd
    simp only [List.foldl_cons]
    have hstep : addKey acc k = acc ++ [k] := by
      unfold addKey
      rw [if_neg (hdisj k (List.mem_cons_self k kt))]
    rw [hstep, ih (acc ++ [k]) hnd.2]
    · simp
    · intro x hx
      simp only [List.mem_append, List.mem_singleton]
      rintro (h1 | h2)
      · exact hdisj x (List.mem_cons_of_mem k hx) h1
      · exact hnd.1 (h2 ▸ hx)

theorem union_keys_eq (ts : List Table)
    (hts : ∀ t ∈ ts, tableKeysNodup t) :
    (unionColumns ts).map Column.key = firstSeenKeys ts := by
  cases ts with
  | nil => rfl
  | cons t rest =>
    show (rest.foldl addTable t.columns).map Column.key = _
    rw [foldTables_keys, ← List.foldl_flatten addKey]
    unfold firstSeenKeys
    simp only [List.map_cons, List.flatten_cons]
    rw [List.foldl_append]
    have h0 : (t.columns.map Column.key).foldl addKey []
        = t.columns.map Column.key := by
      rw [keyFold_app _ [] (hts t (List.mem_cons_self t rest)) (by simp)]
      simp
    rw [h0]

theorem addColumn_prefix (acc : List Column) (c : Column) :
    ∃ ext, addColumn acc c = acc ++ ext := by
  unfold addColumn
  by_cases h : (findMatchingColumn acc c).isSome = true
  · exact ⟨[], by rw [if_pos h]; simp⟩
  · exact ⟨[c], by rw [if_neg h]⟩

theorem foldCols_prefix (cols : List Column) (acc : List Column) :
    ∃ ext, cols.foldl addColumn acc = acc ++ ext := by
  induction cols generalizing acc with
  | nil => exact ⟨[], by simp⟩
  | cons c cs ih =>
    obtain ⟨e1, h1⟩ := addColumn_prefix acc c
    obtain ⟨e2, h2⟩ := ih (addColumn acc c)
    exact ⟨e1 ++ e2, by
      simp only [List.foldl_cons]
      rw [h2, h1, List.append_assoc]⟩

theorem foldTables_prefix (rest : List Table) (acc : List Column) :
    ∃ ext, rest.foldl addTable acc = acc ++ ext := by
  induction rest generalizing acc with
  | nil => exact ⟨[], by simp⟩
  | cons t ts ih =>
    obtain ⟨e1, h1⟩ := foldCols_prefix t.columns acc
    obtain ⟨e2, h2⟩ := ih (addTable acc t)
    exact ⟨e1 ++ e2, by
      simp only [List.foldl_cons]
      rw [h2]
      unfold addTable
      rw [h1, List.append_assoc]⟩

theorem find?_key_self (cols : List Column)
    (hnd : (cols.map Column.key).Nodup) (c : Column) (hc : c ∈ cols) :
    cols.find? (fun x => x.key == c.key) = some c := by
  induction cols with
  | nil => simp at hc
  | cons a tl ih =>
    simp only [List.map_cons, List.nodup_cons] at hnd
    by_cases h : a.key = c.key
    · rw [List.find?_cons_of_pos tl (by simp [h])]
      rcases List.mem_cons.mp hc with he | hm
      · rw [he]
      · exfalso
        apply hnd.1
        rw [h]
        exact List.mem_map_of_mem Column.key hm
    · rw [List.find?_cons_of_neg tl (by simp [h])]
      rcases List.mem_cons.mp hc with he | hm
      · exact absurd (by rw [he]) h
      · exact ih hnd.2 hm

theorem extract_flatten_at (parts : List (List JVal)) (i : ℕ)
    (hi : i < parts.length) :
    extract parts.flatten (((parts.take i).map List.length).sum)
      (parts[i].length)
    = parts[i] := by
  induction parts generalizing i with
  | nil => simp at hi
  | cons p ps ih =>
    cases i with
    | zero =>
      unfold extract
      simp only [List.take_zero, List.map_nil, List.sum_nil, List.drop_zero,
        List.flatten_cons, List.getElem_cons_zero]
      exact List.take_left _ _
    | succ i =>
      have hi' : i < ps.length := by simpa using hi
      unfold extract
      simp only [List.take_succ_cons, List.map_cons, List.sum_cons,
        List.flatten_cons, List.getElem_cons_succ]
      rw [List.drop_append]
      exact ih i hi'

theorem extract_expected (ts : List Table) (k : String × DType)
    (hlen : ∀ t ∈ ts, ∀ c ∈ t.columns, c.data.length = t.numRows)
    (i : ℕ) (hi : i < ts.length) :
    extract (expectedData ts k) (rowOffset ts i) (ts[i].numRows)
    = match lookupKey ts[i] k with
      | some c => c.data
      | none => List.replicate (ts[i].numRows) (JVal.num 0) := by
  have hplen : ∀ t ∈ ts, (match lookupKey t k with
      | some c => c.data
      | none => List.replicate t.numRows (JVal.num 0)).length = t.numRows := by
    intro t ht
    cases hl : lookupKey t k with
    | some c =>
      simp only [hl]
      exact hlen t ht c (List.mem_of_find?_eq_some hl)
    | none => simp [hl]
  have hip : i < (ts.map (fun t =>
      match lookupKey t k with
      | some c => c.data
      | none => List.replicate t.numRows (JVal.num 0))).length := by
    simpa using hi
  have h := extract_flatten_at (ts.map (fun t =>
      match lookupKey t k with
      | some c => c.data
      | none => List.replicate t.numRows (JVal.num 0))) i hip
  rw [List.getElem_map] at h
  have hoff : ((((ts.map (fun t =>
      match lookupKey t k with
      | some c => c.data
      | none => List.replicate t.numRows (JVal.num 0))).take i).map
        List.length).sum) = rowOffset ts i := by
    rw [← List.map_take, List.map_map]
    unfold rowOffset
    congr 1
    apply List.map_congr_left
    intro t ht
    exact hplen t (List.take_subset _ _ ht)
  have hl2 : (match lookupKey ts[i] k with
      | some c => c.data
      | none => List.replicate (ts[i].numRows) (JVal.num 0)).length
      = ts[i].numRows := hplen ts[i] (List.getElem_mem hi)
  rw [hoff, hl2] at h
  unfold expectedData
  exact h

theorem numRows_cols (t : Table) (c : Column) (l : List Column)
    (h : t.columns = c :: l) : t.numRows = c.data.length := by
  unfold Table.numRows
  rw [h]

/-- C1: for a non-empty list of well-formed Gaussian tables (each with
pairwise-distinct column `(name, type)` keys), `combine` returns a table
whose row count is the summed input row counts, whose column keys are the
first-seen `(name, type)` union of the inputs, and in which each input's
row range of every output column holds the input's matching column data, or
zeros when the input has no matching column. -/
theorem combine_spec (ts : List Table) (hne : ts ≠ [])
    (hwf : ∀ t ∈ ts, t.wf) (hkeys : ∀ t ∈ ts, tableKeysNodup t) :
    (combine ts).numRows = (ts.map Table.numRows).sum
    ∧ (combine ts).columns.map Column.key = firstSeenKeys ts
    ∧ ∀ i, (hi : i < ts.length) → ∀ c ∈ (combine ts).columns,
        extract c.data (rowOffset ts i) (ts[i].numRows)
        = match lookupKey ts[i] c.key with
          | some x => x.data
          | none => List.replicate (ts[i].numRows) (JVal.num 0) := by
  have hlen : ∀ t ∈ ts, ∀ c ∈ t.columns, c.data.length = t.numRows :=
    fun t ht => (hwf t ht).2
  cases ts with
  | nil => exact absurd rfl hne
  | cons t1 tl =>
  cases tl with
  | nil =>
    refine ⟨?_, ?_, ?_⟩
    · show t1.numRows = ([t1].map Table.numRows).sum
      simp
    · show t1.columns.map Column.key = firstSeenKeys [t1]
      unfold firstSeenKeys
      simp only [List.map_cons, List.map_nil, List.flatten_cons,
        List.flatten_nil, List.append_nil]
      rw [keyFold_app _ [] (hkeys t1 (List.mem_cons_self t1 [])) (by simp)]
      simp
    · intro i hi c hc
      have hi0 : i = 0 := by
        simp only [List.length_cons, List.length_nil] at hi
        omega
      subst hi0
      simp only [List.getElem_cons_zero]
      show extract c.data (rowOffset [t1] 0) t1.numRows = _
      have h0 : rowOffset [t1] 0 = 0 := rfl
      rw [h0]
      unfold extract
      simp only [List.drop_zero]
      have hln := hlen t1 (List.mem_cons_self t1 []) c hc
      have hfind : lookupKey t1 c.key = some c :=
        find?_key_self t1.columns (hkeys t1 (List.mem_cons_self t1 [])) c hc
      simp only [lookupKey] at hfind
      show c.data.take t1.numRows
        = match lookupKey t1 c.key with
          | some x => x.data
          | none => List.replicate t1.numRows (JVal.num 0)
      simp only [lookupKey, hfind]
      rw [← hln, List.take_length]
  | cons t2 rest =>
    have hcols : (combine (t1 :: t2 :: rest)).columns
        = (unionColumns (t1 :: t2 :: rest)).map (fun u =>
            ⟨u.name, u.dtype, expectedData (t1 :: t2 :: rest) u.key⟩) := by
      have hnd2 : (((unionColumns (t1 :: t2 :: rest)).map (fun c =>
          (⟨c.name, c.dtype,
            List.replicate (((t1 :: t2 :: rest).map Table.numRows).sum)
              (JVal.num 0)⟩ : Column))).map Column.key).Nodup := by
        rw [List.map_map]
        have he : (Column.key ∘ fun c : Column =>
            (⟨c.name, c.dtype,
              List.replicate (((t1 :: t2 :: rest).map Table.numRows).sum)
                (JVal.num 0)⟩ : Column)) = Column.key := rfl
        rw [he]
        exact union_keys_nodup _ hkeys
      show copyGo (t1 :: t2 :: rest)
          ((unionColumns (t1 :: t2 :: rest)).map (fun c =>
            ⟨c.name, c.dtype,
              List.replicate (((t1 :: t2 :: rest).map Table.numRows).sum)
                (JVal.num 0)⟩)) 0 = _
      rw [copyGo_map _ _ _ hkeys hnd2, List.map_map]
      apply List.map_congr_left
      intro u hu
      show (⟨u.name, u.dtype,
        writeData (t1 :: t2 :: rest) u.key
          (List.replicate (((t1 :: t2 :: rest).map Table.numRows).sum)
            (JVal.num 0)) 0⟩ : Column)
        = ⟨u.name, u.dtype, expectedData (t1 :: t2 :: rest) u.key⟩
      have hz := writeData_zeros (t1 :: t2 :: rest) u.key [] hlen
      simp only [List.nil_append, List.length_nil] at hz
      rw [hz]
    refine ⟨?_, ?_, ?_⟩
    · obtain ⟨ext, hS⟩ := foldTables_prefix (t2 :: rest) t1.columns
      have hne1 : t1.columns ≠ [] := (hwf t1 (by simp)).1
      cases hc1 : t1.columns with
      | nil => exact absurd hc1 hne1
      | cons c0 cs =>
        have hS2 : unionColumns (t1 :: t2 :: rest) = c0 :: (cs ++ ext) := by
          show (t2 :: rest).foldl addTable t1.columns = _
          rw [hS, hc1]
          rfl
        rw [numRows_cols _ (⟨c0.name, c0.dtype,
            expectedData (t1 :: t2 :: rest) c0.key⟩ : Column)
            (((cs ++ ext)).map (fun u =>
              ⟨u.name, u.dtype, expectedData (t1 :: t2 :: rest) u.key⟩))
            (by rw [hcols, hS2]; rfl)]
        exact expectedData_length _ _ hlen
    · rw [hcols, List.map_map]
      have he : (Column.key ∘ fun u : Column =>
          (⟨u.name, u.dtype, expectedData (t1 :: t2 :: rest) u.key⟩ : Column))
          = Column.key := rfl
      rw [he]
      exact union_keys_eq _ hkeys
    · intro i hi c hc
      rw [hcols] at hc
      obtain ⟨u, hu, huc⟩ := List.mem_map.mp hc
      rw [← huc]
      show extract (expectedData (t1 :: t2 :: rest) u.key) (rowOffset _ i)
          ((t1 :: t2 :: rest)[i].numRows)
        = match lookupKey (t1 :: t2 :: rest)[i] u.key with
          | some x => x.data
          | none => List.replicate ((t1 :: t2 :: rest)[i].numRows) (JVal.num 0)
      exact extract_expected _ u.key hlen i hi

/-- Two concrete input tables exercising the `combine` theorem: the second
contributes a new column `y`, absent from the first. -/
def wcTables : List Table :=
  [⟨[⟨"x", .f32, [.num 1, .num 2]⟩]⟩,
   ⟨[⟨"x", .f32, [.num 3]⟩, ⟨"y", .f32, [.num 4]⟩]⟩]

theorem combine_spec_witness :
    (wcTables ≠ [] ∧ (∀ t ∈ wcTables, t.wf)
      ∧ (∀ t ∈ wcTables, tableKeysNodup t))
    ∧ ((combine wcTables).numRows = (wcTables.map Table.numRows).sum
       ∧ (combine wcTables).columns.map Column.key = firstSeenKeys wcTables
       ∧ ∀ i, (hi : i < wcTables.length) → ∀ c ∈ (combine wcTables).columns,
           extract c.data (rowOffset wcTables i) (wcTables[i].numRows)
           = match lookupKey wcTables[i] c.key with
             | some x => x.data
             | none => List.replicate (wcTables[i].numRows) (JVal.num 0)) :=
  ⟨⟨by decide, by decide, by decide⟩,
    combine_spec wcTables (by decide) (by decide) (by decide)⟩

-- ### stable index sort (JavaScript `Array.prototype.sort` by a value key)

/-- Insert index `a` into an already sorted index list, after every index
whose key value is strictly smaller — the placement a stable sort gives the
earlier element `a`. -/
def insertIdx (v : ℕ → ℚ) (a : ℕ) : List ℕ → List ℕ
  | [] => [a]
  | b :: t => if v b < v a then b :: insertIdx v a t else a :: b :: t

/-- Stable ascending sort of an index list by a value key, modelling
JavaScript's (specified stable) `sort((a, b) => v[a] - v[b])`. -/
def sortIdx (v : ℕ → ℚ) (l : List ℕ) : List ℕ :=
  l.foldr (fun a acc => insertIdx v a acc) []

theorem insertIdx_perm (v : ℕ → ℚ) (a : ℕ) (l : List ℕ) :
    (insertIdx v a l).Perm (a :: l) := by
  induction l with
  | nil => exact List.Perm.refl _
  | cons b t ih =>
    unfold insertIdx
    by_cases h : v b < v a
    · rw [if_pos h]
      exact (ih.cons b).trans (List.Perm.swap a b t)
    · rw [if_neg h]

theorem sortIdx_perm (v : ℕ → ℚ) (l : List ℕ) : (sortIdx v l).Perm l := by
  induction l with
  | nil => exact List.Perm.refl _
  | cons a t ih =>
    show (insertIdx v a (sortIdx v t)).Perm (a :: t)
    exact (insertIdx_perm v a (sortIdx v t)).trans (ih.cons a)

theorem insertIdx_sorted (v : ℕ → ℚ) (a : ℕ) (l : List ℕ)
    (h : l.Pairwise (fun x y => v x ≤ v y)) :
    (insertIdx v a l).Pairwise (fun x y => v x ≤ v y) := by
  induction l with
  | nil => simp [insertIdx]
  | cons b t ih =>
    rw [List.pairwise_cons] at h
    unfold insertIdx
    by_cases hba : v b < v a
    · rw [if_pos hba]
      rw [List.pairwise_cons]
      constructor
      · intro x hx
        have := (insertIdx_perm v a t).mem_iff.mp hx
        rcases List.mem_cons.mp this with he | hm
        · rw [he]; exact le_of_lt hba
        · exact h.1 x hm
      · exact ih h.2
    · rw [if_neg hba]
      rw [List.pairwise_cons]
      refine ⟨?_, List.pairwise_cons.mpr h⟩
      intro x hx
      rcases List.mem_cons.mp hx with he | hm
      · rw [he]; exact le_of_not_lt hba
      · exact le_trans (le_of_not_lt hba) (h.1 x hm)

theorem sortIdx_sorted (v : ℕ → ℚ) (l : List ℕ) :
    (sortIdx v l).Pairwise (fun x y => v x ≤ v y) := by
  induction l with
  | nil => exact List.Pairwise.nil
  | cons a t ih => exact insertIdx_sorted v a (sortIdx v t) ih

theorem sortIdx_length (v : ℕ → ℚ) (l : List ℕ) :
    (sortIdx v l).length = l.length :=
  (sortIdx_perm v l).length_eq

theorem sortIdx_mem (v : ℕ → ℚ) (l : List ℕ) (x : ℕ) :
    x ∈ sortIdx v l ↔ x ∈ l :=
  (sortIdx_perm v l).mem_iff

-- ### k-d tree (`kd-tree.ts`)
--
-- Point and centroid tables are modelled positionally as a list of columns
-- of rationals (`List (List ℚ)`): k-means builds the centroid table from
-- the point table's own columns, so both share one unique column-name
-- list, and every row-dictionary access in `k-means.ts` and `kd-tree.ts`
-- is equivalent to access by column position.

/-- A k-d tree node (`KdTreeNode`); `empty` stands for an absent
(`undefined`) child. -/
inductive Kd where
  | empty
  | node (index : ℕ) (left right : Kd)
deriving DecidableEq, Repr

/-- The number of rows of a column-list table. -/
def colsRows (cols : List (List ℚ)) : ℕ := (cols.headD []).length

/-- `calcDistance` of `findNearest`: the squared Euclidean distance between
the query point and centroid `index`, summed over all columns. -/
def calcDistance (cols : List (List ℚ)) (point : List ℚ) (index : ℕ) : ℚ :=
  ((List.range cols.length).map (fun i =>
    ((cols.getD i []).getD index 0 - point.getD i 0) ^ 2)).sum

/-- The value of centroid `i` on the splitting axis of `depth`
(`centroids.columns[depth % numColumns].data[i]`). -/
def axisVal (cols : List (List ℚ)) (depth : ℕ) (i : ℕ) : ℚ :=
  (cols.getD (depth % cols.length) []).getD i 0

/-- `KdTree.build`: sort the index slice by the axis `depth % numColumns`,
take the median as the node and recurse on the two halves (fuel-bounded
recursion; the slice length strictly decreases, so `indices.length` fuel
always suffices). -/
def buildGo (cols : List (List ℚ)) : ℕ → List ℕ → ℕ → Kd
  | 0, _, _ => .empty
  | n + 1, indices, depth =>
    match sortIdx (axisVal cols depth) indices with
    | [] => .empty
    | [i] => .node i .empty .empty
    | [i, j] => .node i .empty (.node j .empty .empty)
    | a :: b :: c :: tail =>
      .node ((a :: b :: c :: tail).getD ((a :: b :: c :: tail).length / 2) 0)
        (buildGo cols n
          ((a :: b :: c :: tail).take ((a :: b :: c :: tail).length / 2))
          (depth + 1))
        (buildGo cols n
          ((a :: b :: c :: tail).drop ((a :: b :: c :: tail).length / 2 + 1))
          (depth + 1))

def build (cols : List (List ℚ)) (indices : List ℕ) (depth : ℕ) : Kd :=
  buildGo cols indices.length indices depth

/-- The centroid indices stored in a tree. -/
def Kd.elems : Kd → List ℕ
  | .empty => []
  | .node i l r => i :: (l.elems ++ r.elems)

/-- The running best `(distanceSqr, index)` of `findNearest`; `none` is the
initial `(Infinity, -1)` state, which every distance beats. -/
def ltBest (d : ℚ) (best : Option (ℚ × ℕ)) : Bool :=
  match best with
  | none => true
  | some (m, _) => decide (d < m)

/-- The signed distance from the query point to the splitting plane of the
node with centroid `idx` at `depth`. -/
def planeDist (cols : List (List ℚ)) (point : List ℚ) (depth idx : ℕ) : ℚ :=
  point.getD (depth % cols.length) 0 - axisVal cols depth idx

/-- The "check index" block of `findNearest`: replace the best when this
node's centroid is strictly closer. -/
def updBest (cols : List (List ℚ)) (point : List ℚ) (idx : ℕ)
    (best : Option (ℚ × ℕ)) : Option (ℚ × ℕ) :=
  if ltBest (calcDistance cols point idx) best
  then some (calcDistance cols point idx, idx) else best

/-- The recursive body of `KdTree.findNearest`: descend the splitting-plane
side first, test the node, and visit the far child only when the squared
plane distance still beats the best known squared distance. -/
def nearGo (cols : List (List ℚ)) (point : List ℚ) :
    Kd → ℕ → Option (ℚ × ℕ) → Option (ℚ × ℕ)
  | .empty, _, best => best
  | .node idx l r, depth, best0 =>
    if 0 < planeDist cols point depth idx then
      let best2 := updBest cols point idx (nearGo cols point r (depth + 1) best0)
      if ltBest (planeDist cols point depth idx * planeDist cols point depth idx)
          best2
      then nearGo cols point l (depth + 1) best2
      else best2
    else
      let best2 := updBest cols point idx (nearGo cols point l (depth + 1) best0)
      if ltBest (planeDist cols point depth idx * planeDist cols point depth idx)
          best2
      then nearGo cols point r (depth + 1) best2
      else best2

/-- `KdTree.findNearest` (without the unused `filterFunc`): search from the
root at depth 0 starting from the infinite initial best. -/
def findNearest (cols : List (List ℚ)) (point : List ℚ) (root : Kd) :
    Option (ℚ × ℕ) :=
  nearGo cols point root 0 none

-- ### k-means (`k-means.ts`)

/-- The query point of row `i`: the row read positionally. -/
def pointAt (pointsCols : List (List ℚ)) (i : ℕ) : List ℚ :=
  pointsCols.map (fun col => col.getD i 0)

/-- `clusterKdTreeCpu`: build a k-d tree over the centroids and label every
point with the index found by `findNearest`. -/
def clusterKdTreeCpu (pointsCols centroidCols : List (List ℚ)) : List ℕ :=
  let root := build centroidCols (List.range (colsRows centroidCols)) 0
  (List.range (colsRows pointsCols)).map (fun i =>
    ((findNearest centroidCols (pointAt pointsCols i) root).map Prod.snd).getD 0)

/-- `groupLabels`: bucket `i` holds, in increasing order, exactly the point
indices pushed to it, i.e. those with `labels[i] = c`. -/
def groupLabels (labels : List ℕ) (k : ℕ) : List (List ℕ) :=
  (List.range k).map (fun c =>
    (List.range labels.length).filter (fun i => labels.getD i 0 = c))

/-- `calcAverage`: zero the row, accumulate every cluster member, and
divide by the cluster size when it is positive. -/
def calcAverage (pointsCols : List (List ℚ)) (cluster : List ℕ) : List ℚ :=
  let sums := pointsCols.map (fun col => (cluster.map (fun i => col.getD i 0)).sum)
  if 0 < cluster.length then sums.map (fun s => s / cluster.length) else sums

/-- The centroid-update half of a k-means iteration: overwrite every
centroid row with `calcAverage` of its group. -/
def updateCentroids (pointsCols : List (List ℚ)) (labels : List ℕ) (k : ℕ) :
    List (List ℚ) :=
  let rows := (groupLabels labels k).map (fun g => calcAverage pointsCols g)
  (List.range pointsCols.length).map (fun j => rows.map (fun r => r.getD j 0))

/-- One k-means iteration: assign labels against the current centroids,
then recompute the centroids from the groups. -/
def kmeansStep (pointsCols : List (List ℚ)) (k : ℕ)
    (c : List (List ℚ)) : (List (List ℚ)) × List ℕ :=
  let labels := clusterKdTreeCpu pointsCols c
  (updateCentroids pointsCols labels k, labels)

/-- The `while (!converged)` loop: the body always runs at least once, and
`max 1 iterations` times in total. -/
def kmeansLoop (pointsCols : List (List ℚ)) (k : ℕ) :
    List (List ℚ) → ℕ → (List (List ℚ)) × List ℕ
  | c, 0 => kmeansStep pointsCols k c
  | c, 1 => kmeansStep pointsCols k c
  | c, n + 2 => kmeansLoop pointsCols k (kmeansStep pointsCols k c).1 (n + 1)

/-- The initial centroids: the chosen distinct point rows (the uniform
random draw of `initializeCentroids` is a parameter of the model). -/
def kmeansInit (pointsCols : List (List ℚ)) (initRows : List ℕ) :
    List (List ℚ) :=
  pointsCols.map (fun col => initRows.map (fun r => col.getD r 0))

/-- `kmeans`: with fewer points than clusters return the points and the
identity labeling, otherwise run the iteration loop from the initial
centroids. -/
def kmeans (pointsCols : List (List ℚ)) (k T : ℕ) (initRows : List ℕ) :
    (List (List ℚ)) × List ℕ :=
  if colsRows pointsCols < k then
    (pointsCols, List.range (colsRows pointsCols))
  else
    kmeansLoop pointsCols k (kmeansInit pointsCols initRows) T

/-- The centroid table from which the final label assignment of
`kmeansLoop` is computed (the state before the last centroid update). -/
def preCentroids (pointsCols : List (List ℚ)) (k : ℕ) :
    List (List ℚ) → ℕ → List (List ℚ)
  | c, 0 => c
  | c, 1 => c
  | c, n + 2 => preCentroids pointsCols k (kmeansStep pointsCols k c).1 (n + 1)

-- ### exactness of the k-d tree nearest-neighbour search

/-- The best distance so far, with `none` as infinity. -/
def bval : Option (ℚ × ℕ) → WithTop ℚ
  | none => ⊤
  | some (d, _) => (d : WithTop ℚ)

theorem ltBest_iff (d : ℚ) (b : Option (ℚ × ℕ)) :
    ltBest d b = true ↔ (d : WithTop ℚ) < bval b := by
  cases b with
  | none =>
    simp only [ltBest, bval]
    simpa using WithTop.coe_lt_top d
  | some p =>
    obtain ⟨m, i⟩ := p
    simp only [ltBest, bval, decide_eq_true_eq]
    exact (WithTop.coe_lt_coe).symm

theorem bval_updBest_le (cols : List (List ℚ)) (point : List ℚ) (idx : ℕ)
    (b : Option (ℚ × ℕ)) :
    bval (updBest cols point idx b) ≤ bval b := by
  unfold updBest
  by_cases h : ltBest (calcDistance cols point idx) b = true
  · rw [if_pos h]
    exact le_of_lt ((ltBest_iff _ _).mp h)
  · rw [if_neg h]

theorem bval_updBest_le_calc (cols : List (List ℚ)) (point : List ℚ)
    (idx : ℕ) (b : Option (ℚ × ℕ)) :
    bval (updBest cols point idx b)
      ≤ (calcDistance cols point idx : WithTop ℚ) := by
  unfold updBest
  by_cases h : ltBest (calcDistance cols point idx) b = true
  · rw [if_pos h]
    exact le_refl _
  · rw [if_neg h]
    exact le_of_not_lt (fun hlt => h ((ltBest_iff _ _).mpr hlt))

theorem updBest_isSome (cols : List (List ℚ)) (point : List ℚ) (idx : ℕ)
    (b : Option (ℚ × ℕ)) :
    (updBest cols point idx b).isSome = true := by
  unfold updBest
  by_cases h : ltBest (calcDistance cols point idx) b = true
  · rw [if_pos h]
    rfl
  · rw [if_neg h]
    cases b with
    | none => exact absurd rfl h
    | some p => rfl

/-- The running best is a real candidate: its index lies in `S` and its
distance is the true squared distance to that index. -/
def BestIn (cols : List (List ℚ)) (point : List ℚ) (S : List ℕ) :
    Option (ℚ × ℕ) → Prop
  | none => True
  | some (d, i) => i ∈ S ∧ d = calcDistance cols point i

theorem bestIn_updBest (cols : List (List ℚ)) (point : List ℚ) (idx : ℕ)
    (S : List ℕ) (b : Option (ℚ × ℕ)) (hb : BestIn cols point S b)
    (hidx : idx ∈ S) : BestIn cols point S (updBest cols point idx b) := by
  unfold updBest
  by_cases h : ltBest (calcDistance cols point idx) b = true
  · rw [if_pos h]
    exact ⟨hidx, rfl⟩
  · rw [if_neg h]
    exact hb

theorem nearGo_bval_le (cols : List (List ℚ)) (point : List ℚ) (t : Kd) :
    ∀ (depth : ℕ) (best0 : Option (ℚ × ℕ)),
    bval (nearGo cols point t depth best0) ≤ bval best0 := by
  induction t with
  | empty => intro depth best0; exact le_refl _
  | node idx l r ihl ihr =>
    intro depth best0
    show bval (nearGo cols point (.node idx l r) depth best0) ≤ bval best0
    rw [nearGo]
    by_cases hd : 0 < planeDist cols point depth idx
    · rw [if_pos hd]
      have h1 := ihr (depth + 1) best0
      have h2 := bval_updBest_le cols point idx
        (nearGo cols point r (depth + 1) best0)
      by_cases hp : ltBest (planeDist cols point depth idx
          * planeDist cols point depth idx)
          (updBest cols point idx (nearGo cols point r (depth + 1) best0)) = true
      · rw [if_pos hp]
        exact le_trans (ihl (depth + 1) _) (le_trans h2 h1)
      · rw [if_neg hp]
        exact le_trans h2 h1
    · rw [if_neg hd]
      have h1 := ihl (depth + 1) best0
      have h2 := bval_updBest_le cols point idx
        (nearGo cols point l (depth + 1) best0)
      by_cases hp : ltBest (planeDist cols point depth idx
          * planeDist cols point depth idx)
          (updBest cols point idx (nearGo cols point l (depth + 1) best0)) = true
      · rw [if_pos hp]
        exact le_trans (ihr (depth + 1) _) (le_trans h2 h1)
      · rw [if_neg hp]
        exact le_trans h2 h1

theorem nearGo_isSome_of (cols : List (List ℚ)) (point : List ℚ) (t : Kd) :
    ∀ (depth : ℕ) (best0 : Option (ℚ × ℕ)), best0.isSome = true →
    (nearGo cols point t depth best0).isSome = true := by
  induction t with
  | empty => intro depth best0 h; exact h
  | node idx l r ihl ihr =>
    intro depth best0 _
    show (nearGo cols point (.node idx l r) depth best0).isSome = true
    rw [nearGo]
    by_cases hd : 0 < planeDist cols point depth idx
    · rw [if_pos hd]
      have h2 := updBest_isSome cols point idx
        (nearGo cols point r (depth + 1) best0)
      by_cases hp : ltBest (planeDist cols point depth idx
          * planeDist cols point depth idx)
          (updBest cols point idx (nearGo cols point r (depth + 1) best0)) = true
      · rw [if_pos hp]
        exact ihl (depth + 1) _ h2
      · rw [if_neg hp]
        exact h2
    · rw [if_neg hd]
      have h2 := updBest_isSome cols point idx
        (nearGo cols point l (depth + 1) best0)
      by_cases hp : ltBest (planeDist cols point depth idx
          * planeDist cols point depth idx)
          (updBest cols point idx (nearGo cols point l (depth + 1) best0)) = true
      · rw [if_pos hp]
        exact ihr (depth + 1) _ h2
      · rw [if_neg hp]
        exact h2

theorem nearGo_node_isSome (cols : List (List ℚ)) (point : List ℚ)
    (idx : ℕ) (l r : Kd) (depth : ℕ) (best0 : Option (ℚ × ℕ)) :
    (nearGo cols point (.node idx l r) depth best0).isSome = true := by
  rw [nearGo]
  by_cases hd : 0 < planeDist cols point depth idx
  · rw [if_pos hd]
    have h2 := updBest_isSome cols point idx
      (nearGo cols point r (depth + 1) best0)
    by_cases hp : ltBest (planeDist cols point depth idx
        * planeDist cols point depth idx)
        (updBest cols point idx (nearGo cols point r (depth + 1) best0)) = true
    · rw [if_pos hp]
      exact nearGo_isSome_of cols point l (depth + 1) _ h2
    · rw [if_neg hp]
      exact h2
  · rw [if_neg hd]
    have h2 := updBest_isSome cols point idx
      (nearGo cols point l (depth + 1) best0)
    by_cases hp : ltBest (planeDist cols point depth idx
        * planeDist cols point depth idx)
        (updBest cols point idx (nearGo cols point l (depth + 1) best0)) = true
    · rw [if_pos hp]
      exact nearGo_isSome_of cols point r (depth + 1) _ h2
    · rw [if_neg hp]
      exact h2

theorem nearGo_bestIn (cols : List (List ℚ)) (point : List ℚ) (t : Kd)
    (S : List ℕ) (hsub : ∀ x ∈ t.elems, x ∈ S) :
    ∀ (depth : ℕ) (best0 : Option (ℚ × ℕ)), BestIn cols point S best0 →
    BestIn cols point S (nearGo cols point t depth best0) := by
  induction t with
  | empty => intro depth best0 h; exact h
  | node idx l r ihl ihr =>
    have hidx : idx ∈ S := hsub idx (by simp [Kd.elems])
    have hsl : ∀ x ∈ l.elems, x ∈ S := fun x hx =>
      hsub x (by simp [Kd.elems, hx])
    have hsr : ∀ x ∈ r.elems, x ∈ S := fun x hx =>
      hsub x (by simp [Kd.elems, hx])
    intro depth best0 h0
    show BestIn cols point S (nearGo cols point (.node idx l r) depth best0)
    rw [nearGo]
    by_cases hd : 0 < planeDist cols point depth idx
    · rw [if_pos hd]
      have h2 := bestIn_updBest cols point idx S _
        (ihr hsr (depth + 1) best0 h0) hidx
      by_cases hp : ltBest (planeDist cols point depth idx
          * planeDist cols point depth idx)
          (updBest cols point idx (nearGo cols point r (depth + 1) best0)) = true
      · rw [if_pos hp]
        exact ihl hsl (depth + 1) _ h2
      · rw [if_neg hp]
        exact h2
    · rw [if_neg hd]
      have h2 := bestIn_updBest cols point idx S _
        (ihl hsl (depth + 1) best0 h0) hidx
      by_cases hp : ltBest (planeDist cols point depth idx
          * planeDist cols point depth idx)
          (updBest cols point idx (nearGo cols point l (depth + 1) best0)) = true
      · rw [if_pos hp]
        exact ihr hsr (depth + 1) _ h2
      · rw [if_neg hp]
        exact h2

/-- The k-d tree partition invariant: on the splitting axis of its depth,
every left-subtree centroid is at most the node's centroid value and every
right-subtree centroid at least it. -/
def Inv (cols : List (List ℚ)) : Kd → ℕ → Prop
  | .empty, _ => True
  | .node idx l r, depth =>
    (∀ j ∈ l.elems, axisVal cols depth j ≤ axisVal cols depth idx)
    ∧ (∀ j ∈ r.elems, axisVal cols depth idx ≤ axisVal cols depth j)
    ∧ Inv cols l (depth + 1) ∧ Inv cols r (depth + 1)

theorem term_le_calc (cols : List (List ℚ)) (point : List ℚ) (hD : cols ≠ [])
    (depth j : ℕ) :
    (axisVal cols depth j - point.getD (depth % cols.length) 0) ^ 2
      ≤ calcDistance cols point j := by
  unfold calcDistance axisVal
  have haxis : depth % cols.length < cols.length :=
    Nat.mod_lt _ (List.length_pos.mpr hD)
  apply List.single_le_sum
  · intro x hx
    obtain ⟨i, hi, he⟩ := List.mem_map.mp hx
    rw [← he]
    exact sq_nonneg _
  · exact List.mem_map_of_mem _ (List.mem_range.mpr haxis)

theorem plane_sq_le_pos (cols : List (List ℚ)) (point : List ℚ)
    (depth idx j : ℕ) (hd : 0 < planeDist cols point depth idx)
    (hj : axisVal cols depth j ≤ axisVal cols depth idx) :
    planeDist cols point depth idx * planeDist cols point depth idx
      ≤ (axisVal cols depth j - point.getD (depth % cols.length) 0) ^ 2 := by
  unfold planeDist at *
  have h1 : point.getD (depth % cols.length) 0 - axisVal cols depth idx
      ≤ point.getD (depth % cols.length) 0 - axisVal cols depth j := by
    linarith
  have h2 := mul_self_le_mul_self (le_of_lt hd) h1
  calc (point.getD (depth % cols.length) 0 - axisVal cols depth idx)
        * (point.getD (depth % cols.length) 0 - axisVal cols depth idx)
      ≤ (point.getD (depth % cols.length) 0 - axisVal cols depth j)
        * (point.getD (depth % cols.length) 0 - axisVal cols depth j) := h2
    _ = (axisVal cols depth j - point.getD (depth % cols.length) 0) ^ 2 := by
        ring

theorem plane_sq_le_neg (cols : List (List ℚ)) (point : List ℚ)
    (depth idx j : ℕ) (hd : ¬ 0 < planeDist cols point depth idx)
    (hj : axisVal cols depth idx ≤ axisVal cols depth j) :
    planeDist cols point depth idx * planeDist cols point depth idx
      ≤ (axisVal cols depth j - point.getD (depth % cols.length) 0) ^ 2 := by
  unfold planeDist at *
  have h0 : 0 ≤ axisVal cols depth idx - point.getD (depth % cols.length) 0 := by
    have := le_of_not_lt hd
    linarith
  have h1 : axisVal cols depth idx - point.getD (depth % cols.length) 0
      ≤ axisVal cols depth j - point.getD (depth % cols.length) 0 := by
    linarith
  have h2 := mul_self_le_mul_self h0 h1
  calc (point.getD (depth % cols.length) 0 - axisVal cols depth idx)
        * (point.getD (depth % cols.length) 0 - axisVal cols depth idx)
      = (axisVal cols depth idx - point.getD (depth % cols.length) 0)
        * (axisVal cols depth idx - point.getD (depth % cols.length) 0) := by
        ring
    _ ≤ (axisVal cols depth j - point.getD (depth % cols.length) 0)
        * (axisVal cols depth j - point.getD (depth % cols.length) 0) := h2
    _ = (axisVal cols depth j - point.getD (depth % cols.length) 0) ^ 2 := by
        ring

theorem nearGo_complete (cols : List (List ℚ)) (point : List ℚ)
    (hD : cols ≠ []) (t : Kd) :
    ∀ (depth : ℕ), Inv cols t depth →
    ∀ (best0 : Option (ℚ × ℕ)) (j : ℕ), j ∈ t.elems →
    bval (nearGo cols point t depth best0)
      ≤ (calcDistance cols point j : WithTop ℚ) := by
  induction t with
  | empty =>
    intro depth _ best0 j hj
    simp [Kd.elems] at hj
  | node idx l r ihl ihr =>
    intro depth hInv best0 j hj
    unfold Inv at hInv
    obtain ⟨hL, hR, hIl, hIr⟩ := hInv
    have hj3 : j = idx ∨ j ∈ l.elems ∨ j ∈ r.elems := by
      simpa [Kd.elems, List.mem_append] using hj
    show bval (nearGo cols point (.node idx l r) depth best0) ≤ _
    rw [nearGo]
    by_cases hd : 0 < planeDist cols point depth idx
    · rw [if_pos hd]
      have hB2le := bval_updBest_le cols point idx
        (nearGo cols point r (depth + 1) best0)
      have hB2c := bval_updBest_le_calc cols point idx
        (nearGo cols point r (depth + 1) best0)
      by_cases hp : ltBest (planeDist cols point depth idx
          * planeDist cols point depth idx)
          (updBest cols point idx (nearGo cols point r (depth + 1) best0)) = true
      · rw [if_pos hp]
        rcases hj3 with hji | hjl | hjr
        · rw [hji] at hj ⊢
          exact le_trans (nearGo_bval_le cols point l (depth + 1) _) hB2c
        · exact ihl (depth + 1) hIl _ j hjl
        · exact le_trans (nearGo_bval_le cols point l (depth + 1) _)
            (le_trans hB2le (ihr (depth + 1) hIr best0 j hjr))
      · rw [if_neg hp]
        rcases hj3 with hji | hjl | hjr
        · rw [hji]
          exact hB2c
        · have hple : bval (updBest cols point idx
              (nearGo cols point r (depth + 1) best0))
              ≤ ((planeDist cols point depth idx
                  * planeDist cols point depth idx : ℚ) : WithTop ℚ) :=
            le_of_not_lt (fun hlt => hp ((ltBest_iff _ _).mpr hlt))
          refine le_trans hple (WithTop.coe_le_coe.mpr ?_)
          exact le_trans
            (plane_sq_le_pos cols point depth idx j hd (hL j hjl))
            (term_le_calc cols point hD depth j)
        · exact le_trans hB2le (ihr (depth + 1) hIr best0 j hjr)
    · rw [if_neg hd]
      have hB2le := bval_updBest_le cols point idx
        (nearGo cols point l (depth + 1) best0)
      have hB2c := bval_updBest_le_calc cols point idx
        (nearGo cols point l (depth + 1) best0)
      by_cases hp : ltBest (planeDist cols point depth idx
          * planeDist cols point depth idx)
          (updBest cols point idx (nearGo cols point l (depth + 1) best0)) = true
      · rw [if_pos hp]
        rcases hj3 with hji | hjl | hjr
        · rw [hji]
          exact le_trans (nearGo_bval_le cols point r (depth + 1) _) hB2c
        · exact le_trans (nearGo_bval_le cols point r (depth + 1) _)
            (le_trans hB2le (ihl (depth + 1) hIl best0 j hjl))
        · exact ihr (depth + 1) hIr _ j hjr
      · rw [if_neg hp]
        rcases hj3 with hji | hjl | hjr
        · rw [hji]
          exact hB2c
        · exact le_trans hB2le (ihl (depth + 1) hIl best0 j hjl)
        · have hple : bval (updBest cols point idx
              (nearGo cols point l (depth + 1) best0))
              ≤ ((planeDist cols point depth idx
                  * planeDist cols point depth idx : ℚ) : WithTop ℚ) :=
            le_of_not_lt (fun hlt => hp ((ltBest_iff _ _).mpr hlt))
          refine le_trans hple (WithTop.coe_le_coe.mpr ?_)
          exact le_trans
            (plane_sq_le_neg cols point depth idx j hd (hR j hjr))
            (term_le_calc cols point hD depth j)

-- ### properties of `KdTree.build`

theorem sorted_decomp (s : List ℕ) (h3 : 3 ≤ s.length) :
    s.take (s.length / 2) ++ s.getD (s.length / 2) 0
      :: s.drop (s.length / 2 + 1) = s := by
  have hmid : s.length / 2 < s.length := Nat.div_lt_self (by omega) (by omega)
  rw [List.getD_eq_getElem s 0 hmid, ← List.drop_eq_getElem_cons hmid]
  exact List.take_append_drop _ s

theorem buildGo_elems_perm (cols : List (List ℚ)) :
    ∀ (fuel : ℕ) (indices : List ℕ) (depth : ℕ), indices.length ≤ fuel →
    ((buildGo cols fuel indices depth).elems).Perm indices := by
  intro fuel
  induction fuel with
  | zero =>
    intro indices depth h
    have hnil : indices = [] := List.eq_nil_of_length_eq_zero (Nat.le_zero.mp h)
    rw [hnil]
    show (Kd.elems .empty).Perm []
    exact List.Perm.refl _
  | succ n ih =>
    intro indices depth h
    have hperm : (sortIdx (axisVal cols depth) indices).Perm indices :=
      sortIdx_perm _ indices
    rw [buildGo]
    cases hs : sortIdx (axisVal cols depth) indices with
    | nil =>
      rw [hs] at hperm
      exact hperm
    | cons a tl =>
      cases tl with
      | nil =>
        rw [hs] at hperm
        show ([a] : List ℕ).Perm indices
        exact hperm
      | cons b tl2 =>
        cases tl2 with
        | nil =>
          rw [hs] at hperm
          show ([a, b] : List ℕ).Perm indices
          exact hperm
        | cons c tail =>
          rw [hs] at hperm
          have hslen : (a :: b :: c :: tail).length = indices.length :=
            hperm.length_eq
          have h3 : 3 ≤ (a :: b :: c :: tail).length := by
            simp only [List.length_cons]
            omega
          have hmid : (a :: b :: c :: tail).length / 2
              < (a :: b :: c :: tail).length :=
            Nat.div_lt_self (by omega) (by omega)
          have htk := List.length_take_le
            ((a :: b :: c :: tail).length / 2) (a :: b :: c :: tail)
          have hfl : ((a :: b :: c :: tail).take
              ((a :: b :: c :: tail).length / 2)).length ≤ n := by
            omega
          have hfr : ((a :: b :: c :: tail).drop
              ((a :: b :: c :: tail).length / 2 + 1)).length ≤ n := by
            rw [List.length_drop]
            omega
          have pl := ih _ (depth + 1) hfl
          have pr := ih _ (depth + 1) hfr
          show ((a :: b :: c :: tail).getD ((a :: b :: c :: tail).length / 2) 0
            :: ((buildGo cols n _ (depth + 1)).elems
                ++ (buildGo cols n _ (depth + 1)).elems)).Perm indices
          refine ((pl.append pr).cons _).trans ?_
          refine List.Perm.trans ?_ hperm
          have := @List.perm_middle ℕ
            ((a :: b :: c :: tail).getD ((a :: b :: c :: tail).length / 2) 0)
            ((a :: b :: c :: tail).take ((a :: b :: c :: tail).length / 2))
            ((a :: b :: c :: tail).drop ((a :: b :: c :: tail).length / 2 + 1))
          refine this.symm.trans ?_
          rw [sorted_decomp _ h3]

theorem buildGo_inv (cols : List (List ℚ)) :
    ∀ (fuel : ℕ) (indices : List ℕ) (depth : ℕ), indices.length ≤ fuel →
    Inv cols (buildGo cols fuel indices depth) depth := by
  intro fuel
  induction fuel with
  | zero =>
    intro indices depth h
    exact trivial
  | succ n ih =>
    intro indices depth h
    have hsorted : (sortIdx (axisVal cols depth) indices).Pairwise
        (fun x y => axisVal cols depth x ≤ axisVal cols depth y) :=
      sortIdx_sorted _ indices
    rw [buildGo]
    cases hs : sortIdx (axisVal cols depth) indices with
    | nil => exact trivial
    | cons a tl =>
      cases tl with
      | nil =>
        show Inv cols (.node a .empty .empty) depth
        unfold Inv
        exact ⟨by simp [Kd.elems], by simp [Kd.elems], trivial, trivial⟩
      | cons b tl2 =>
        cases tl2 with
        | nil =>
          rw [hs] at hsorted
          have hab : axisVal cols depth a ≤ axisVal cols depth b := by
            rw [List.pairwise_cons] at hsorted
            exact hsorted.1 b (List.mem_singleton.mpr rfl)
          show Inv cols (.node a .empty (.node b .empty .empty)) depth
          unfold Inv
          refine ⟨by simp [Kd.elems], ?_, trivial, ?_⟩
          · intro j hj
            have : j = b := by simpa [Kd.elems] using hj
            rw [this]
            exact hab
          · unfold Inv
            exact ⟨by simp [Kd.elems], by simp [Kd.elems], trivial, trivial⟩
        | cons c tail =>
          rw [hs] at hsorted
          have hperm : (sortIdx (axisVal cols depth) indices).Perm indices :=
            sortIdx_perm _ indices
          rw [hs] at hperm
          have hslen : (a :: b :: c :: tail).length = indices.length :=
            hperm.length_eq
          have h3 : 3 ≤ (a :: b :: c :: tail).length := by
            simp only [List.length_cons]
            omega
          have hmid : (a :: b :: c :: tail).length / 2
              < (a :: b :: c :: tail).length :=
            Nat.div_lt_self (by omega) (by omega)
          have htk := List.length_take_le
            ((a :: b :: c :: tail).length / 2) (a :: b :: c :: tail)
          have hfl : ((a :: b :: c :: tail).take
              ((a :: b :: c :: tail).length / 2)).length ≤ n := by
            omega
          have hfr : ((a :: b :: c :: tail).drop
              ((a :: b :: c :: tail).length / 2 + 1)).length ≤ n := by
            rw [List.length_drop]
            omega
          have hdec := sorted_decomp (a :: b :: c :: tail) h3
          rw [← hdec] at hsorted
          rw [List.pairwise_append] at hsorted
          obtain ⟨hp1, hp2, hp12⟩ := hsorted
          rw [List.pairwise_cons] at hp2
          show Inv cols (.node ((a :: b :: c :: tail).getD
              ((a :: b :: c :: tail).length / 2) 0) _ _) depth
          unfold Inv
          refine ⟨?_, ?_, ih _ (depth + 1) hfl, ih _ (depth + 1) hfr⟩
          · intro j hj
            have hjm : j ∈ (a :: b :: c :: tail).take
                ((a :: b :: c :: tail).length / 2) :=
              (buildGo_elems_perm cols n _ (depth + 1) hfl).mem_iff.mp hj
            exact hp12 j hjm _ (List.mem_cons_self _ _)
          · intro j hj
            have hjm : j ∈ (a :: b :: c :: tail).drop
                ((a :: b :: c :: tail).length / 2 + 1) :=
              (buildGo_elems_perm cols n _ (depth + 1) hfr).mem_iff.mp hj
            exact hp2.1 j hjm

theorem buildGo_ne_empty (cols : List (List ℚ)) (fuel : ℕ)
    (indices : List ℕ) (depth : ℕ) (hf : indices.length ≤ fuel)
    (hne : indices ≠ []) :
    buildGo cols fuel indices depth ≠ .empty := by
  cases fuel with
  | zero =>
    exact absurd (List.eq_nil_of_length_eq_zero (Nat.le_zero.mp hf)) hne
  | succ n =>
    have hperm : (sortIdx (axisVal cols depth) indices).Perm indices :=
      sortIdx_perm _ indices
    rw [buildGo]
    cases hs : sortIdx (axisVal cols depth) indices with
    | nil =>
      rw [hs] at hperm
      exact absurd hperm.symm.eq_nil hne
    | cons a tl =>
      cases tl with
      | nil => simp
      | cons b tl2 =>
        cases tl2 with
        | nil => simp
        | cons c tail => simp

theorem getD_map {α β : Type} (f : α → β) (l : List α) (j : ℕ)
    (hj : j < l.length) (d : α) (e : β) :
    (l.map f).getD j e = f (l.getD j d) := by
  rw [List.getD_eq_getElem _ _ (by simpa using hj), List.getElem_map,
    List.getD_eq_getElem _ _ hj]

theorem clusterKdTreeCpu_argmin (pointsCols centroidCols : List (List ℚ))
    (hD : centroidCols ≠ []) (hk : 0 < colsRows centroidCols) :
    ∀ i < colsRows pointsCols,
      (clusterKdTreeCpu pointsCols centroidCols).getD i 0 < colsRows centroidCols
      ∧ ∀ j < colsRows centroidCols,
        calcDistance centroidCols (pointAt pointsCols i)
          ((clusterKdTreeCpu pointsCols centroidCols).getD i 0)
        ≤ calcDistance centroidCols (pointAt pointsCols i) j := by
  intro i hi
  have hlab : (clusterKdTreeCpu pointsCols centroidCols).getD i 0
      = ((findNearest centroidCols (pointAt pointsCols i)
          (build centroidCols (List.range (colsRows centroidCols)) 0)).map
            Prod.snd).getD 0 := by
    unfold clusterKdTreeCpu
    rw [getD_map _ _ i (by simpa using hi) 0 0]
    rw [List.getD_eq_getElem _ _ (by simpa using hi), List.getElem_range]
  have hrne : List.range (colsRows centroidCols) ≠ [] := by
    intro hnil
    rw [List.range_eq_nil] at hnil
    omega
  have hfuel : (List.range (colsRows centroidCols)).length
      ≤ (List.range (colsRows centroidCols)).length := le_refl _
  have hroot_ne : build centroidCols (List.range (colsRows centroidCols)) 0
      ≠ .empty :=
    buildGo_ne_empty centroidCols _ _ 0 hfuel hrne
  have hperm := buildGo_elems_perm centroidCols _
    (List.range (colsRows centroidCols)) 0 hfuel
  have hinv := buildGo_inv centroidCols _
    (List.range (colsRows centroidCols)) 0 hfuel
  rw [show buildGo centroidCols (List.range (colsRows centroidCols)).length
      (List.range (colsRows centroidCols)) 0
      = build centroidCols (List.range (colsRows centroidCols)) 0 from rfl]
    at hperm hinv
  have hsome : (findNearest centroidCols (pointAt pointsCols i)
      (build centroidCols (List.range (colsRows centroidCols)) 0)).isSome
      = true := by
    unfold findNearest
    cases hb : build centroidCols (List.range (colsRows centroidCols)) 0 with
    | empty => exact absurd hb hroot_ne
    | node idx l r => exact nearGo_node_isSome _ _ idx l r 0 none
  obtain ⟨p, hres⟩ := Option.isSome_iff_exists.mp hsome
  obtain ⟨d, lab⟩ := p
  have hok := nearGo_bestIn centroidCols (pointAt pointsCols i)
    (build centroidCols (List.range (colsRows centroidCols)) 0)
    (List.range (colsRows centroidCols))
    (fun x hx => hperm.mem_iff.mp hx) 0 none trivial
  rw [show nearGo centroidCols (pointAt pointsCols i)
      (build centroidCols (List.range (colsRows centroidCols)) 0) 0 none
      = some (d, lab) from hres] at hok
  obtain ⟨hmem, hdist⟩ := hok
  have hcomp : ∀ j < colsRows centroidCols,
      calcDistance centroidCols (pointAt pointsCols i) lab
      ≤ calcDistance centroidCols (pointAt pointsCols i) j := by
    intro j hj
    have hjmem : j ∈ (build centroidCols
        (List.range (colsRows centroidCols)) 0).elems :=
      hperm.mem_iff.mpr (List.mem_range.mpr hj)
    have := nearGo_complete centroidCols (pointAt pointsCols i) hD _ 0 hinv
      none j hjmem
    rw [show nearGo centroidCols (pointAt pointsCols i)
        (build centroidCols (List.range (colsRows centroidCols)) 0) 0 none
        = some (d, lab) from hres] at this
    have hd : bval (some (d, lab)) = (d : WithTop ℚ) := rfl
    rw [hd, hdist] at this
    exact WithTop.coe_le_coe.mp this
  rw [hlab, hres]
  exact ⟨List.mem_range.mp hmem, hcomp⟩

theorem updateCentroids_len (pointsCols : List (List ℚ)) (labels : List ℕ)
    (k : ℕ) : (updateCentroids pointsCols labels k).length
      = pointsCols.length := by
  unfold updateCentroids
  simp

theorem updateCentroids_col_len (pointsCols : List (List ℚ))
    (labels : List ℕ) (k : ℕ) :
    ∀ col ∈ updateCentroids pointsCols labels k, col.length = k := by
  unfold updateCentroids
  intro col hcol
  obtain ⟨j, hj, he⟩ := List.mem_map.mp hcol
  rw [← he]
  simp [groupLabels]

theorem preCentroids_shape (pointsCols : List (List ℚ)) (k : ℕ) :
    ∀ (T : ℕ) (c : List (List ℚ)), c.length = pointsCols.length →
    (∀ col ∈ c, col.length = k) →
    (preCentroids pointsCols k c T).length = pointsCols.length
    ∧ ∀ col ∈ preCentroids pointsCols k c T, col.length = k := by
  intro T
  induction T using Nat.strong_induction_on with
  | _ T ih =>
    intro c h1 h2
    match T with
    | 0 => exact ⟨h1, h2⟩
    | 1 => exact ⟨h1, h2⟩
    | n + 2 =>
      exact ih (n + 1) (by omega) (kmeansStep pointsCols k c).1
        (updateCentroids_len pointsCols _ k)
        (updateCentroids_col_len pointsCols _ k)

theorem kmeansLoop_labels (pointsCols : List (List ℚ)) (k : ℕ) :
    ∀ (T : ℕ) (c : List (List ℚ)),
    (kmeansLoop pointsCols k c T).2
    = clusterKdTreeCpu pointsCols (preCentroids pointsCols k c T) := by
  intro T
  induction T using Nat.strong_induction_on with
  | _ T ih =>
    intro c
    match T with
    | 0 => rfl
    | 1 => rfl
    | n + 2 => exact ih (n + 1) (by omega) (kmeansStep pointsCols k c).1

theorem colsRows_eq_of (c : List (List ℚ)) (k : ℕ) (hne : c ≠ [])
    (h : ∀ col ∈ c, col.length = k) : colsRows c = k := by
  cases c with
  | nil => exact absurd rfl hne
  | cons a t => exact h a (List.mem_cons_self a t)

/-- C6 (amended): for every point table with at least `k ≥ 1` rows and a
`k`-element initial draw, every returned label indexes a centroid of the
table from which the final assignment was computed — the centroids *before*
the last mean update — and minimizes the squared distance to its point over
that table.  (Minimality against the returned, post-update centroids can
fail; see the counterexample.) -/
theorem kmeans_labels_argmin (pointsCols : List (List ℚ)) (k T : ℕ)
    (initRows : List ℕ) (hD : pointsCols ≠ []) (hk : 0 < k)
    (hnk : ¬ colsRows pointsCols < k) (hinit : initRows.length = k) :
    ∀ i < colsRows pointsCols,
      ((kmeans pointsCols k T initRows).2).getD i 0 < k
      ∧ ∀ j < k,
        calcDistance
          (preCentroids pointsCols k (kmeansInit pointsCols initRows) T)
          (pointAt pointsCols i)
          (((kmeans pointsCols k T initRows).2).getD i 0)
        ≤ calcDistance
          (preCentroids pointsCols k (kmeansInit pointsCols initRows) T)
          (pointAt pointsCols i) j := by
  have hklen : kmeans pointsCols k T initRows
      = kmeansLoop pointsCols k (kmeansInit pointsCols initRows) T := by
    unfold kmeans
    rw [if_neg hnk]
  have hinitlen : (kmeansInit pointsCols initRows).length
      = pointsCols.length := by
    unfold kmeansInit
    simp
  have hinitcl : ∀ col ∈ kmeansInit pointsCols initRows, col.length = k := by
    unfold kmeansInit
    intro col hcol
    obtain ⟨c0, hc0, he⟩ := List.mem_map.mp hcol
    rw [← he]
    simp [hinit]
  obtain ⟨hplen, hpcols⟩ := preCentroids_shape pointsCols k T
    (kmeansInit pointsCols initRows) hinitlen hinitcl
  have hcne : preCentroids pointsCols k (kmeansInit pointsCols initRows) T
      ≠ [] := by
    intro hnil
    rw [hnil] at hplen
    have hpos := List.length_pos.mpr hD
    rw [← hplen] at hpos
    simp at hpos
  have hck : colsRows
      (preCentroids pointsCols k (kmeansInit pointsCols initRows) T) = k :=
    colsRows_eq_of _ k hcne hpcols
  have hlabels : (kmeans pointsCols k T initRows).2
      = clusterKdTreeCpu pointsCols
          (preCentroids pointsCols k (kmeansInit pointsCols initRows) T) := by
    rw [hklen]
    exact kmeansLoop_labels pointsCols k T _
  intro i hi
  have harg := clusterKdTreeCpu_argmin pointsCols
    (preCentroids pointsCols k (kmeansInit pointsCols initRows) T) hcne
    (by rw [hck]; exact hk) i hi
  rw [hck] at harg
  rw [hlabels]
  exact harg

/-- C5 (amended): in every k-means iteration, after the label assignment,
centroid `i`'s value in column `j` is the arithmetic mean of its assigned
points when the cluster is non-empty, and is reset to zero — not retained —
when the cluster is empty; the update is independent of the previous
centroid values. -/
theorem kmeans_update_spec (pointsCols : List (List ℚ)) (k : ℕ)
    (c : List (List ℚ)) (j i : ℕ) (hj : j < pointsCols.length) (hi : i < k) :
    (((kmeansStep pointsCols k c).1).getD j []).getD i 0
    = if 0 < ((groupLabels (clusterKdTreeCpu pointsCols c) k).getD i []).length
      then (((groupLabels (clusterKdTreeCpu pointsCols c) k).getD i []).map
             (fun r => (pointsCols.getD j []).getD r 0)).sum
           / ((groupLabels (clusterKdTreeCpu pointsCols c) k).getD i []).length
      else 0 := by
  show ((updateCentroids pointsCols (clusterKdTreeCpu pointsCols c) k).getD
    j []).getD i 0 = _
  unfold updateCentroids
  have hglen : (groupLabels (clusterKdTreeCpu pointsCols c) k).length = k := by
    unfold groupLabels
    simp
  rw [getD_map _ (List.range pointsCols.length) j (by simpa using hj) 0 []]
  rw [List.getD_eq_getElem (List.range pointsCols.length) 0
    (by simpa using hj), List.getElem_range]
  rw [getD_map (fun r : List ℚ => r.getD j 0)
    ((groupLabels (clusterKdTreeCpu pointsCols c) k).map
      (calcAverage pointsCols)) i (by simpa [hglen] using hi) [] 0]
  rw [getD_map (calcAverage pointsCols)
    (groupLabels (clusterKdTreeCpu pointsCols c) k) i
    (by rw [hglen]; exact hi) [] []]
  unfold calcAverage
  by_cases hgl : 0 < ((groupLabels (clusterKdTreeCpu pointsCols c) k).getD
      i []).length
  · rw [if_pos hgl, if_pos hgl]
    rw [getD_map (fun s : ℚ => s / (((groupLabels
        (clusterKdTreeCpu pointsCols c) k).getD i []).length : ℚ))
      (pointsCols.map (fun col => (((groupLabels
        (clusterKdTreeCpu pointsCols c) k).getD i []).map
          (fun r => col.getD r 0)).sum)) j (by simpa using hj) 0 0]
    rw [getD_map _ pointsCols j hj [] 0]
  · rw [if_neg hgl, if_neg hgl]
    rw [getD_map _ pointsCols j hj [] 0]
    have hge : (groupLabels (clusterKdTreeCpu pointsCols c) k).getD i []
        = [] := by
      have : ((groupLabels (clusterKdTreeCpu pointsCols c) k).getD
          i []).length = 0 := by omega
      exact List.eq_nil_of_length_eq_zero this
    rw [hge]
    simp

/-- C5 counterexample: three 1-D points `5, 5, 0` with both initial
centroids at value `5`.  Every point is assigned to centroid 0, so cluster
1 is empty; its previous value `5` is not retained — the returned second
centroid is `0`. -/
theorem kmeans_empty_cluster_zeroed :
    (groupLabels (clusterKdTreeCpu [[(5 : ℚ), 5, 0]]
        (kmeansInit [[(5 : ℚ), 5, 0]] [0, 1])) 2).getD 1 [] = []
    ∧ ((kmeansInit [[(5 : ℚ), 5, 0]] [0, 1]).getD 0 []).getD 1 0 = 5
    ∧ (kmeans [[(5 : ℚ), 5, 0]] 2 1 [0, 1]).1 = [[10 / 3, 0]]
    ∧ (((kmeans [[(5 : ℚ), 5, 0]] 2 1 [0, 1]).1).getD 0 []).getD 1 0 ≠ 5 := by
  refine ⟨?_, ?_, ?_, ?_⟩ <;>
    norm_num [kmeans, kmeansLoop, kmeansStep, kmeansInit, clusterKdTreeCpu,
      build, buildGo, sortIdx, insertIdx, nearGo, findNearest, calcDistance,
      pointAt, colsRows, groupLabels, calcAverage, updateCentroids, ltBest,
      updBest, planeDist, axisVal, List.range_succ]

theorem kmeans_update_spec_witness :
    (0 < [[(5 : ℚ), 5, 0]].length ∧ 1 < 2)
    ∧ ((((kmeansStep [[(5 : ℚ), 5, 0]] 2 [[5, 5]]).1).getD 0 []).getD 1 0
       = if 0 < ((groupLabels (clusterKdTreeCpu [[(5 : ℚ), 5, 0]]
              [[5, 5]]) 2).getD 1 []).length
         then (((groupLabels (clusterKdTreeCpu [[(5 : ℚ), 5, 0]]
                [[5, 5]]) 2).getD 1 []).map
              (fun r => ([[(5 : ℚ), 5, 0]].getD 0 []).getD r 0)).sum
            / ((groupLabels (clusterKdTreeCpu [[(5 : ℚ), 5, 0]]
                [[5, 5]]) 2).getD 1 []).length
         else 0) :=
  ⟨⟨by decide, by decide⟩,
    kmeans_update_spec [[(5 : ℚ), 5, 0]] 2 [[5, 5]] 0 1 (by decide) (by decide)⟩

/-- The stale-label scenario: 1-D points `-200, 0, 49, 100`, initial
centroids the rows `0` and `100`. -/
def stalePts : List (List ℚ) := [[-200, 0, 49, 100]]

/-- C6 counterexample: after one iteration the returned labels assign point
`49` to centroid 0, yet among the returned (post-update) centroids
`(-151/3, 100)` the closer one is centroid 1 — the labels argmin the
pre-update centroids, not the returned ones. -/
theorem kmeans_labels_stale :
    (kmeans stalePts 2 1 [1, 3]) = ([[(-151) / 3, 100]], [0, 0, 0, 1])
    ∧ ((kmeans stalePts 2 1 [1, 3]).2).getD 2 0 = 0
    ∧ calcDistance (kmeans stalePts 2 1 [1, 3]).1 (pointAt stalePts 2) 1
        < calcDistance (kmeans stalePts 2 1 [1, 3]).1 (pointAt stalePts 2) 0 := by
  refine ⟨?_, ?_, ?_⟩ <;>
    norm_num [stalePts, kmeans, kmeansLoop, kmeansStep, kmeansInit,
      clusterKdTreeCpu, build, buildGo, sortIdx, insertIdx, nearGo,
      findNearest, calcDistance, pointAt, colsRows, groupLabels, calcAverage,
      updateCentroids, ltBest, updBest, planeDist, axisVal, List.range_succ]

theorem kmeans_labels_argmin_witness :
    ([[(0 : ℚ), 10]] ≠ [] ∧ 0 < 2 ∧ ¬ colsRows [[(0 : ℚ), 10]] < 2
      ∧ ([0, 1] : List ℕ).length = 2)
    ∧ (∀ i < colsRows [[(0 : ℚ), 10]],
        ((kmeans [[(0 : ℚ), 10]] 2 1 [0, 1]).2).getD i 0 < 2
        ∧ ∀ j < 2,
          calcDistance (preCentroids [[(0 : ℚ), 10]] 2
              (kmeansInit [[(0 : ℚ), 10]] [0, 1]) 1)
            (pointAt [[(0 : ℚ), 10]] i)
            (((kmeans [[(0 : ℚ), 10]] 2 1 [0, 1]).2).getD i 0)
          ≤ calcDistance (preCentroids [[(0 : ℚ), 10]] 2
              (kmeansInit [[(0 : ℚ), 10]] [0, 1]) 1)
            (pointAt [[(0 : ℚ), 10]] i) j) :=
  ⟨⟨by decide, by decide, by decide, by decide⟩,
    kmeans_labels_argmin [[(0 : ℚ), 10]] 2 1 [0, 1] (by decide) (by decide)
      (by decide) (by decide)⟩

-- ### the geometric transform pipeline (`transform.ts`, `process.ts`)
--
-- Real-valued geometry is modelled over `ℝ`.  The playcanvas math library
-- is external to the repository; its operations are modelled from the
-- spec's §4.5 semantics.

/-- A 3-vector of reals. -/
structure Vec3R where
  x : ℝ
  y : ℝ
  z : ℝ

/-- A quaternion in playcanvas component order `(x, y, z, w)`. -/
structure QuatR where
  x : ℝ
  y : ℝ
  z : ℝ
  w : ℝ

/-- The identity quaternion (`Quat.IDENTITY`). -/
def quatIdentity : QuatR := ⟨0, 0, 0, 1⟩

/-- Modelled from the spec: the Hamilton product computed by the external
`Quat.mul2` — §4.5's quaternion update `q_r · q_row`. -/
def quatMul (a b : QuatR) : QuatR :=
  ⟨a.w * b.x + a.x * b.w + a.y * b.z - a.z * b.y,
   a.w * b.y - a.x * b.z + a.y * b.w + a.z * b.x,
   a.w * b.z + a.x * b.y - a.y * b.x + a.z * b.w,
   a.w * b.w - a.x * b.x - a.y * b.y - a.z * b.z⟩

/-- Modelled from the spec: the external `Quat.setFromEulerAngles(x,y,z)`
used by the rotate action — the unit quaternion composed from Euler angles
in degrees (half angles in radians). -/
noncomputable def quatFromEulerDeg (ex ey ez : ℝ) : QuatR :=
  let hx := ex * (Real.pi / 360)
  let hy := ey * (Real.pi / 360)
  let hz := ez * (Real.pi / 360)
  let sx := Real.sin hx
  let cx := Real.cos hx
  let sy := Real.sin hy
  let cy := Real.cos hy
  let sz := Real.sin hz
  let cz := Real.cos hz
  ⟨sx * cy * cz - cx * sy * sz,
   cx * sy * cz + sx * cy * sz,
   cx * cy * sz - sx * sy * cz,
   cx * cy * cz + sx * sy * sz⟩

/-- Modelled from the spec: rotation of a vector by a unit quaternion —
the matrix form `R` of §4.5 applied to a point. -/
def rotateVec (q : QuatR) (v : Vec3R) : Vec3R :=
  ⟨(1 - 2 * (q.y ^ 2 + q.z ^ 2)) * v.x + 2 * (q.x * q.y - q.w * q.z) * v.y
      + 2 * (q.x * q.z + q.w * q.y) * v.z,
   2 * (q.x * q.y + q.w * q.z) * v.x + (1 - 2 * (q.x ^ 2 + q.z ^ 2)) * v.y
      + 2 * (q.y * q.z - q.w * q.x) * v.z,
   2 * (q.x * q.z - q.w * q.y) * v.x + 2 * (q.y * q.z + q.w * q.x) * v.y
      + (1 - 2 * (q.x ^ 2 + q.y ^ 2)) * v.z⟩

/-- One Gaussian row of a table holding exactly the required GS columns
(no `f_rest_*`, so `transform` takes `shBands = 0` and all three of
`hasTranslation`, `hasRotation`, `hasScale` hold). -/
structure GSRow where
  x : ℝ
  y : ℝ
  z : ℝ
  rot_0 : ℝ
  rot_1 : ℝ
  rot_2 : ℝ
  rot_3 : ℝ
  scale_0 : ℝ
  scale_1 : ℝ
  scale_2 : ℝ

/-- `transform(dataTable, t, r, s)` applied to one row: the position maps
through `mat4.setTRS` (`p' = R·(s·p) + t`), the row quaternion is
left-multiplied by `r`, and each log-scale becomes `ln(exp(scale)·s)`. -/
noncomputable def transformRow (t : Vec3R) (r : QuatR) (s : ℝ)
    (row : GSRow) : GSRow :=
  let p := rotateVec r ⟨s * row.x, s * row.y, s * row.z⟩
  let q := quatMul r ⟨row.rot_1, row.rot_2, row.rot_3, row.rot_0⟩
  { x := p.x + t.x
    y := p.y + t.y
    z := p.z + t.z
    rot_0 := q.w
    rot_1 := q.x
    rot_2 := q.y
    rot_3 := q.z
    scale_0 := Real.log (Real.exp row.scale_0 * s)
    scale_1 := Real.log (Real.exp row.scale_1 * s)
    scale_2 := Real.log (Real.exp row.scale_2 * s) }

/-- The translate / rotate / uniform-scale actions of `process`. -/
inductive TRSAction where
  | translate (t : Vec3R)
  | rotate (e : Vec3R)
  | scale (s : ℝ)

/-- `process` restricted to transform actions: apply them left-to-right;
`translate` uses the identity rotation and unit scale, `rotate` composes
the Euler quaternion, `scale` uses the identity rotation. -/
noncomputable def processTRS (row : GSRow) (actions : List TRSAction) : GSRow :=
  actions.foldl (fun row a =>
    match a with
    | .translate t => transformRow t quatIdentity 1 row
    | .rotate e => transformRow ⟨0, 0, 0⟩ (quatFromEulerDeg e.x e.y e.z) 1 row
    | .scale s => transformRow ⟨0, 0, 0⟩ quatIdentity s row) row

/-- The E3 input: one splat at `(1,0,0)`, identity quaternion, zero
log-scales. -/
def e3Row : GSRow := ⟨1, 0, 0, 1, 0, 0, 0, 0, 0, 0⟩

/-- The E3 action sequence `-r 0,90,0 -t 0,0,1 -s 2`. -/
def e3Actions : List TRSAction :=
  [.rotate ⟨0, 90, 0⟩, .translate ⟨0, 0, 1⟩, .scale 2]

theorem e3_eval :
    processTRS e3Row e3Actions
    = { x := 0, y := 0, z := 0,
        rot_0 := Real.sqrt 2 / 2, rot_1 := 0, rot_2 := Real.sqrt 2 / 2,
        rot_3 := 0,
        scale_0 := Real.log 2, scale_1 := Real.log 2,
        scale_2 := Real.log 2 } := by
  have hpi4 : (90 : ℝ) * (Real.pi / 360) = Real.pi / 4 := by ring
  have hc : Real.cos ((90 : ℝ) * (Real.pi / 360)) = Real.sqrt 2 / 2 := by
    rw [hpi4, Real.cos_pi_div_four]
  have hs : Real.sin ((90 : ℝ) * (Real.pi / 360)) = Real.sqrt 2 / 2 := by
    rw [hpi4, Real.sin_pi_div_four]
  have hsq : (Real.sqrt 2 / 2) ^ 2 = 1 / 2 := by
    rw [div_pow, Real.sq_sqrt (by norm_num : (2:ℝ) ≥ 0)]
    norm_num
  have hq : quatFromEulerDeg 0 90 0
      = ⟨0, Real.sqrt 2 / 2, 0, Real.sqrt 2 / 2⟩ := by
    unfold quatFromEulerDeg
    simp only [zero_mul, Real.sin_zero, Real.cos_zero, hc, hs]
    congr 1 <;> ring
  show processTRS e3Row e3Actions = _
  unfold processTRS e3Actions e3Row
  simp only [List.foldl_cons, List.foldl_nil, hq]
  unfold transformRow rotateVec quatMul quatIdentity
  simp only []
  have hexp0 : Real.exp 0 = 1 := Real.exp_zero
  have h2 : Real.sqrt 2 ^ 2 = 2 := Real.sq_sqrt (by norm_num)
  congr 1 <;>
    simp only [hexp0, mul_one, one_mul, Real.log_one, Real.exp_zero] <;>
    first
      | (rw [show Real.log (Real.exp (Real.log 1) * 2) = Real.log 2 by
            rw [Real.log_one, Real.exp_zero, one_mul]])
      | ring1
      | (rw [h2]; norm_num)
      | (ring_nf; rw [h2]; norm_num)

/-- C3 counterexample: applying `-r 0,90,0 -t 0,0,1 -s 2` left-to-right to
the E3 splat moves it to the origin — the rotation sends `(1,0,0)` to
`(0,0,-1)`, the translate adds `(0,0,1)`, and the scale doubles `(0,0,0)` —
so the final `z` is `0`, not the `-1` the claim states. -/
theorem e3_position_not_minus_one :
    (processTRS e3Row e3Actions).z = 0
    ∧ (processTRS e3Row e3Actions).z ≠ -1 := by
  rw [e3_eval]
  norm_num

/-- C3 (amended): actions apply left-to-right, and the E3 sequence yields
position `(0,0,0)`, quaternion `(√2/2, 0, √2/2, 0)` as `(rot_0..rot_3)`,
and each `scale_i` equal to `ln 2`. -/
theorem e3_transform_spec :
    processTRS e3Row e3Actions
    = { x := 0, y := 0, z := 0,
        rot_0 := Real.sqrt 2 / 2, rot_1 := 0, rot_2 := Real.sqrt 2 / 2,
        rot_3 := 0,
        scale_0 := Real.log 2, scale_1 := Real.log 2,
        scale_2 := Real.log 2 } := e3_eval

-- ### the `.splat` reader's quaternion path (`read-splat.ts`)

/-- Dequantize one quaternion byte: `(v / 255) * 2 - 1`. -/
def dequantRot (b : ℕ) : ℚ := (b : ℚ) / 255 * 2 - 1

theorem dequantRot_eq (b : ℕ) : dequantRot b = (b : ℚ) / 127.5 - 1 := by
  unfold dequantRot
  rw [show (127.5 : ℚ) = 255 / 2 by norm_num]
  ring1

/-- The quaternion storage step of `readSplat`: normalize the dequantized
vector into `(rot_0, rot_1, rot_2, rot_3)` when its length is positive,
otherwise store `(0, 0, 0, 1)` (the code's "default to identity" branch). -/
noncomputable def storeRotation (r0n r1n r2n r3n : ℝ) : ℝ × ℝ × ℝ × ℝ :=
  if 0 < Real.sqrt (r0n * r0n + r1n * r1n + r2n * r2n + r3n * r3n) then
    (r0n / Real.sqrt (r0n * r0n + r1n * r1n + r2n * r2n + r3n * r3n),
     r1n / Real.sqrt (r0n * r0n + r1n * r1n + r2n * r2n + r3n * r3n),
     r2n / Real.sqrt (r0n * r0n + r1n * r1n + r2n * r2n + r3n * r3n),
     r3n / Real.sqrt (r0n * r0n + r1n * r1n + r2n * r2n + r3n * r3n))
  else (0, 0, 0, 1)

/-- The full per-record rotation of `readSplat` from the four bytes. -/
noncomputable def readSplatRot (b0 b1 b2 b3 : ℕ) : ℝ × ℝ × ℝ × ℝ :=
  storeRotation ((dequantRot b0 : ℚ) : ℝ) ((dequantRot b1 : ℚ) : ℝ)
    ((dequantRot b2 : ℚ) : ℝ) ((dequantRot b3 : ℚ) : ℝ)

/-- C9: on a zero-length dequantized quaternion the reader stores
`(rot_0, rot_1, rot_2, rot_3) = (0, 0, 0, 1)` — under the repository's
`w = rot_0` convention this is `w = 0`, a 180° rotation about `z`, not the
identity quaternion `(1, 0, 0, 0)` that the comment and spec intend;
moreover no quaternion byte reaches the branch, since `v/127.5 − 1 = 0`
would need the non-integer byte value `127.5`. -/
theorem storeRotation_zero_not_identity :
    storeRotation 0 0 0 0 = (0, 0, 0, 1)
    ∧ storeRotation 0 0 0 0 ≠ (1, 0, 0, 0)
    ∧ ∀ b : ℕ, dequantRot b ≠ 0 := by
  have hz : Real.sqrt ((0:ℝ) * 0 + 0 * 0 + 0 * 0 + 0 * 0) = 0 := by
    norm_num
  have h0 : storeRotation 0 0 0 0 = ((0:ℝ), (0:ℝ), (0:ℝ), (1:ℝ)) := by
    unfold storeRotation
    rw [if_neg (by rw [hz]; exact lt_irrefl 0)]
  refine ⟨h0, ?_, ?_⟩
  · rw [h0]
    intro hcontra
    have := congrArg Prod.fst hcontra
    norm_num at this
  · intro b hb
    unfold dequantRot at hb
    have h2 : (b : ℚ) * 2 = 255 := by
      field_simp at hb
      linarith
    have h3 : ((b * 2 : ℕ) : ℚ) = ((255 : ℕ) : ℚ) := by
      push_cast
      linarith
    have := Nat.cast_injective h3
    omega

-- ### compressed-PLY chunk packing (`CompressedChunk.pack`)

/-- `min = max = data[0]`, then fold `Math.min` / `Math.max` over the rest.
A chunk always holds at least one splat, so the `[]` case is unreachable. -/
def calcMinMax : List ℚ → ℚ × ℚ
  | [] => (0, 0)
  | d :: rest => (rest.foldl min d, rest.foldl max d)

/-- `Math.max(min, Math.min(max, v))`. -/
def clamp (v mn mx : ℚ) : ℚ := max mn (min mx v)

/-- The chunk's `normalize`: `x <= min → 0`, `x >= max → 1`, degenerate
range (< 0.00001) → 0, otherwise `(x - min) / (max - min)`. -/
def normalize (x mn mx : ℚ) : ℚ :=
  if x ≤ mn then 0
  else if mx ≤ x then 1
  else if mx - mn < 1 / 100000 then 0
  else (x - mn) / (mx - mn)

/-- `packUnorm`: with `t = (1 << bits) - 1`, clamp `floor(v * t + 0.5)`
into `[0, t]`. -/
def packUnorm (value : ℚ) (bits : ℕ) : ℕ :=
  (max 0 (min ((2 ^ bits - 1 : ℕ) : ℤ) ⌊value * ((2 ^ bits - 1 : ℕ) : ℚ) + 1 / 2⌋)).toNat

/-- `pack111011`: `packUnorm(x,11) << 21 | packUnorm(y,10) << 11 | packUnorm(z,11)`. -/
def pack111011 (x y z : ℚ) : ℕ :=
  packUnorm x 11 <<< 21 ||| packUnorm y 10 <<< 11 ||| packUnorm z 11

/-- The SH DC constant `0.28209479177387814` used by the color conversion. -/
def SH_C0 : ℚ := 0.28209479177387814

/-- One compressed chunk's per-member columns (all the same length, the
chunk size). -/
structure Chunk where
  x : List ℚ
  y : List ℚ
  z : List ℚ
  scale_0 : List ℚ
  scale_1 : List ℚ
  scale_2 : List ℚ
  f_dc_0 : List ℚ
  f_dc_1 : List ℚ
  f_dc_2 : List ℚ
  opacity : List ℚ
  rot_0 : List ℚ
  rot_1 : List ℚ
  rot_2 : List ℚ
  rot_3 : List ℚ

/-- `CompressedChunk.pack`, restricted to the outputs the claim is about:
the 18-float `chunkData` header and the per-splat `scale` words.  Min/max
of positions and scales come first; the scale extents are then clamped to
`[-20, 20]`; `f_dc_i` is converted in place through `v * SH_C0 + 0.5`
before the color min/max; each scale word packs the three normalized
(against the clamped extents) log-scales 11/10/11.  The header is written
in the code's order
`[px.min, py.min, pz.min, px.max, py.max, pz.max, sx.min, sy.min, sz.min,
sx.max, sy.max, sz.max, cr.min, cg.min, cb.min, cr.max, cg.max, cb.max]`. -/
def packChunk (c : Chunk) : List ℚ × List ℕ :=
  let px := calcMinMax c.x
  let py := calcMinMax c.y
  let pz := calcMinMax c.z
  let sx := calcMinMax c.scale_0
  let sy := calcMinMax c.scale_1
  let sz := calcMinMax c.scale_2
  let sxc : ℚ × ℚ := (clamp sx.1 (-20) 20, clamp sx.2 (-20) 20)
  let syc : ℚ × ℚ := (clamp sy.1 (-20) 20, clamp sy.2 (-20) 20)
  let szc : ℚ × ℚ := (clamp sz.1 (-20) 20, clamp sz.2 (-20) 20)
  let f0 := c.f_dc_0.map fun v => v * SH_C0 + 1 / 2
  let f1 := c.f_dc_1.map fun v => v * SH_C0 + 1 / 2
  let f2 := c.f_dc_2.map fun v => v * SH_C0 + 1 / 2
  let cr := calcMinMax f0
  let cg := calcMinMax f1
  let cb := calcMinMax f2
  let scaleWords := (List.range c.x.length).map fun i =>
    pack111011 (normalize (c.scale_0.getD i 0) sxc.1 sxc.2)
      (normalize (c.scale_1.getD i 0) syc.1 syc.2)
      (normalize (c.scale_2.getD i 0) szc.1 szc.2)
  ([px.1, py.1, pz.1, px.2, py.2, pz.2,
    sxc.1, syc.1, szc.1, sxc.2, syc.2, szc.2,
    cr.1, cg.1, cb.1, cr.2, cg.2, cb.2], scaleWords)

/-- `m` is the least element of `l` (and occurs in it). -/
def IsListMin (m : ℚ) (l : List ℚ) : Prop := m ∈ l ∧ ∀ v ∈ l, m ≤ v

/-- `m` is the greatest element of `l` (and occurs in it). -/
def IsListMax (m : ℚ) (l : List ℚ) : Prop := m ∈ l ∧ ∀ v ∈ l, v ≤ m

theorem foldl_min_le_init : ∀ (l : List ℚ) (a : ℚ), l.foldl min a ≤ a
  | [], a => le_refl a
  | b :: l, a => le_trans (foldl_min_le_init l (min a b)) (min_le_left a b)

theorem foldl_min_le_mem : ∀ (l : List ℚ) (a v : ℚ), v ∈ l → l.foldl min a ≤ v
  | b :: l, a, v, hv => by
    rcases List.mem_cons.mp hv with h | h
    · subst h
      exact le_trans (foldl_min_le_init l (min a v)) (min_le_right a v)
    · exact foldl_min_le_mem l (min a b) v h

theorem foldl_min_mem : ∀ (l : List ℚ) (a : ℚ), l.foldl min a = a ∨ l.foldl min a ∈ l
  | [], _ => Or.inl rfl
  | b :: l, a => by
    rcases foldl_min_mem l (min a b) with h | h
    · rcases min_choice a b with hm | hm
      · exact Or.inl (h.trans hm)
      · exact Or.inr (List.mem_cons.mpr (Or.inl (h.trans hm)))
    · exact Or.inr (List.mem_cons.mpr (Or.inr h))

theorem le_foldl_max_init : ∀ (l : List ℚ) (a : ℚ), a ≤ l.foldl max a
  | [], a => le_refl a
  | b :: l, a => le_trans (le_max_left a b) (le_foldl_max_init l (max a b))

theorem mem_le_foldl_max : ∀ (l : List ℚ) (a v : ℚ), v ∈ l → v ≤ l.foldl max a
  | b :: l, a, v, hv => by
    rcases List.mem_cons.mp hv with h | h
    · subst h
      exact le_trans (le_max_right a v) (le_foldl_max_init l (max a v))
    · exact mem_le_foldl_max l (max a b) v h

theorem foldl_max_mem : ∀ (l : List ℚ) (a : ℚ), l.foldl max a = a ∨ l.foldl max a ∈ l
  | [], _ => Or.inl rfl
  | b :: l, a => by
    rcases foldl_max_mem l (max a b) with h | h
    · rcases max_choice a b with hm | hm
      · exact Or.inl (h.trans hm)
      · exact Or.inr (List.mem_cons.mpr (Or.inl (h.trans hm)))
    · exact Or.inr (List.mem_cons.mpr (Or.inr h))

theorem calcMinMax_isMin (l : List ℚ) (h : l ≠ []) : IsListMin (calcMinMax l).1 l := by
  obtain ⟨d, rest, rfl⟩ := List.exists_cons_of_ne_nil h
  constructor
  · rcases foldl_min_mem rest d with hm | hm
    · exact List.mem_cons.mpr (Or.inl hm)
    · exact List.mem_cons.mpr (Or.inr hm)
  · intro v hv
    rcases List.mem_cons.mp hv with h | h
    · exact h ▸ foldl_min_le_init rest d
    · exact foldl_min_le_mem rest d v h

theorem calcMinMax_isMax (l : List ℚ) (h : l ≠ []) : IsListMax (calcMinMax l).2 l := by
  obtain ⟨d, rest, rfl⟩ := List.exists_cons_of_ne_nil h
  constructor
  · rcases foldl_max_mem rest d with hm | hm
    · exact List.mem_cons.mpr (Or.inl hm)
    · exact List.mem_cons.mpr (Or.inr hm)
  · intro v hv
    rcases List.mem_cons.mp hv with h | h
    · exact h ▸ le_foldl_max_init rest d
    · exact mem_le_foldl_max rest d v h

theorem mul_pow_lor_eq_add (a b k : ℕ) (hb : b < 2 ^ k) :
    a * 2 ^ k ||| b = a * 2 ^ k + b := by
  rw [Nat.mul_comm a (2 ^ k)]
  apply Nat.eq_of_testBit_eq
  intro j
  rw [Nat.testBit_lor, Nat.testBit_mul_pow_two_add a hb j]
  have h0 : Nat.testBit (2 ^ k * a) j
      = if j < k then Nat.testBit 0 j else Nat.testBit a (j - k) := by
    have h := Nat.testBit_mul_pow_two_add a (b := 0) (i := k) (Nat.two_pow_pos k) j
    simpa using h
  rw [h0]
  by_cases hj : j < k
  · simp [hj]
  · have hbj : b.testBit j = false :=
      Nat.testBit_lt_two_pow
        (lt_of_lt_of_le hb (Nat.pow_le_pow_right (by norm_num) (Nat.le_of_not_lt hj)))
    simp [hj, hbj]

theorem packUnorm_lt (v : ℚ) (bits : ℕ) : packUnorm v bits < 2 ^ bits := by
  unfold packUnorm
  have h1 : max 0 (min ((2 ^ bits - 1 : ℕ) : ℤ) ⌊v * ((2 ^ bits - 1 : ℕ) : ℚ) + 1 / 2⌋)
      ≤ ((2 ^ bits - 1 : ℕ) : ℤ) :=
    max_le (Int.natCast_nonneg _) (min_le_left _ _)
  calc (max 0 (min ((2 ^ bits - 1 : ℕ) : ℤ) ⌊v * ((2 ^ bits - 1 : ℕ) : ℚ) + 1 / 2⌋)).toNat
      ≤ ((2 ^ bits - 1 : ℕ) : ℤ).toNat := Int.toNat_le_toNat h1
    _ = 2 ^ bits - 1 := Int.toNat_natCast _
    _ < 2 ^ bits := Nat.sub_lt (Nat.two_pow_pos bits) one_pos

theorem pack111011_eq (x y z : ℚ) :
    pack111011 x y z
      = packUnorm x 11 * 2 ^ 21 + packUnorm y 10 * 2 ^ 11 + packUnorm z 11 := by
  unfold pack111011
  rw [Nat.shiftLeft_eq, Nat.shiftLeft_eq]
  have hy := packUnorm_lt y 10
  have hz := packUnorm_lt z 11
  have h1 : packUnorm x 11 * 2 ^ 21 ||| packUnorm y 10 * 2 ^ 11
      = packUnorm x 11 * 2 ^ 21 + packUnorm y 10 * 2 ^ 11 := by
    apply mul_pow_lor_eq_add
    calc packUnorm y 10 * 2 ^ 11 < 2 ^ 10 * 2 ^ 11 :=
          mul_lt_mul_of_pos_right hy (by norm_num)
      _ = 2 ^ 21 := by norm_num
  rw [h1]
  have h2 : packUnorm x 11 * 2 ^ 21 + packUnorm y 10 * 2 ^ 11
      = (packUnorm x 11 * 2 ^ 10 + packUnorm y 10) * 2 ^ 11 := by ring
  rw [h2, mul_pow_lor_eq_add _ _ _ hz]

/-- A two-splat chunk separating header index 3 (x-maximum in the code)
from the claimed scale_0 minimum. -/
def e8Chunk : Chunk :=
  { x := [0, 1], y := [2, 2], z := [3, 4],
    scale_0 := [2, 3], scale_1 := [-30, 5], scale_2 := [0, 25],
    f_dc_0 := [0, 1], f_dc_1 := [0, 0], f_dc_2 := [0, 0],
    opacity := [0, 0], rot_0 := [1, 1], rot_1 := [0, 0],
    rot_2 := [0, 0], rot_3 := [0, 0] }

/-- C8 counterexample: the header is NOT "all six minima of
(x,y,z,sx,sy,sz) first, then the six maxima": index 3 of the packed
header holds the x-maximum (here 1), whereas the claimed layout would put
the clamped scale_0 minimum (here 2) there. -/
theorem chunk_header_interleaved :
    (packChunk e8Chunk).1.getD 3 0 = 1
    ∧ clamp (calcMinMax e8Chunk.scale_0).1 (-20) 20 = 2
    ∧ (packChunk e8Chunk).1.getD 3 0 ≠ clamp (calcMinMax e8Chunk.scale_0).1 (-20) 20 := by
  refine ⟨?_, ?_, ?_⟩ <;>
    norm_num [packChunk, calcMinMax, clamp, e8Chunk, min_def, max_def,
      List.getD_cons_succ, List.getD_cons_zero]

/-- C8 amended: for every chunk with nonempty member columns, the packed
header lists, in order, the position minima `(x,y,z)`, the position
maxima, the scale minima clamped to `[-20,20]`, the clamped scale maxima,
the color minima of `f_dc_i * SH_C0 + 0.5`, and the color maxima — where
each `calcMinMax` really is the least/greatest element of its column —
and each splat's scale word is
`packUnorm(n0,11)*2^21 + packUnorm(n1,10)*2^11 + packUnorm(n2,11)` of the
log-scales normalized against the clamped extents. -/
theorem packChunk_spec (c : Chunk)
    (hx : c.x ≠ []) (hy : c.y ≠ []) (hz : c.z ≠ [])
    (hs0 : c.scale_0 ≠ []) (hs1 : c.scale_1 ≠ []) (hs2 : c.scale_2 ≠ [])
    (hf0 : c.f_dc_0 ≠ []) (hf1 : c.f_dc_1 ≠ []) (hf2 : c.f_dc_2 ≠ []) :
    (IsListMin (calcMinMax c.x).1 c.x ∧ IsListMax (calcMinMax c.x).2 c.x)
    ∧ (IsListMin (calcMinMax c.y).1 c.y ∧ IsListMax (calcMinMax c.y).2 c.y)
    ∧ (IsListMin (calcMinMax c.z).1 c.z ∧ IsListMax (calcMinMax c.z).2 c.z)
    ∧ (IsListMin (calcMinMax c.scale_0).1 c.scale_0 ∧ IsListMax (calcMinMax c.scale_0).2 c.scale_0)
    ∧ (IsListMin (calcMinMax c.scale_1).1 c.scale_1 ∧ IsListMax (calcMinMax c.scale_1).2 c.scale_1)
    ∧ (IsListMin (calcMinMax c.scale_2).1 c.scale_2 ∧ IsListMax (calcMinMax c.scale_2).2 c.scale_2)
    ∧ (IsListMin (calcMinMax (c.f_dc_0.map fun v => v * SH_C0 + 1 / 2)).1
          (c.f_dc_0.map fun v => v * SH_C0 + 1 / 2)
        ∧ IsListMax (calcMinMax (c.f_dc_0.map fun v => v * SH_C0 + 1 / 2)).2
          (c.f_dc_0.map fun v => v * SH_C0 + 1 / 2))
    ∧ (IsListMin (calcMinMax (c.f_dc_1.map fun v => v * SH_C0 + 1 / 2)).1
          (c.f_dc_1.map fun v => v * SH_C0 + 1 / 2)
        ∧ IsListMax (calcMinMax (c.f_dc_1.map fun v => v * SH_C0 + 1 / 2)).2
          (c.f_dc_1.map fun v => v * SH_C0 + 1 / 2))
    ∧ (IsListMin (calcMinMax (c.f_dc_2.map fun v => v * SH_C0 + 1 / 2)).1
          (c.f_dc_2.map fun v => v * SH_C0 + 1 / 2)
        ∧ IsListMax (calcMinMax (c.f_dc_2.map fun v => v * SH_C0 + 1 / 2)).2
          (c.f_dc_2.map fun v => v * SH_C0 + 1 / 2))
    ∧ (packChunk c).1 =
        [(calcMinMax c.x).1, (calcMinMax c.y).1, (calcMinMax c.z).1,
         (calcMinMax c.x).2, (calcMinMax c.y).2, (calcMinMax c.z).2,
         clamp (calcMinMax c.scale_0).1 (-20) 20,
         clamp (calcMinMax c.scale_1).1 (-20) 20,
         clamp (calcMinMax c.scale_2).1 (-20) 20,
         clamp (calcMinMax c.scale_0).2 (-20) 20,
         clamp (calcMinMax c.scale_1).2 (-20) 20,
         clamp (calcMinMax c.scale_2).2 (-20) 20,
         (calcMinMax (c.f_dc_0.map fun v => v * SH_C0 + 1 / 2)).1,
         (calcMinMax (c.f_dc_1.map fun v => v * SH_C0 + 1 / 2)).1,
         (calcMinMax (c.f_dc_2.map fun v => v * SH_C0 + 1 / 2)).1,
         (calcMinMax (c.f_dc_0.map fun v => v * SH_C0 + 1 / 2)).2,
         (calcMinMax (c.f_dc_1.map fun v => v * SH_C0 + 1 / 2)).2,
         (calcMinMax (c.f_dc_2.map fun v => v * SH_C0 + 1 / 2)).2]
    ∧ (packChunk c).2 = (List.range c.x.length).map fun i =>
        packUnorm (normalize (c.scale_0.getD i 0)
            (clamp (calcMinMax c.scale_0).1 (-20) 20)
            (clamp (calcMinMax c.scale_0).2 (-20) 20)) 11 * 2 ^ 21
        + packUnorm (normalize (c.scale_1.getD i 0)
            (clamp (calcMinMax c.scale_1).1 (-20) 20)
            (clamp (calcMinMax c.scale_1).2 (-20) 20)) 10 * 2 ^ 11
        + packUnorm (normalize (c.scale_2.getD i 0)
            (clamp (calcMinMax c.scale_2).1 (-20) 20)
            (clamp (calcMinMax c.scale_2).2 (-20) 20)) 11 := by
  have hmf0 : (c.f_dc_0.map fun v => v * SH_C0 + 1 / 2) ≠ [] := by simpa using hf0
  have hmf1 : (c.f_dc_1.map fun v => v * SH_C0 + 1 / 2) ≠ [] := by simpa using hf1
  have hmf2 : (c.f_dc_2.map fun v => v * SH_C0 + 1 / 2) ≠ [] := by simpa using hf2
  refine ⟨⟨calcMinMax_isMin _ hx, calcMinMax_isMax _ hx⟩,
    ⟨calcMinMax_isMin _ hy, calcMinMax_isMax _ hy⟩,
    ⟨calcMinMax_isMin _ hz, calcMinMax_isMax _ hz⟩,
    ⟨calcMinMax_isMin _ hs0, calcMinMax_isMax _ hs0⟩,
    ⟨calcMinMax_isMin _ hs1, calcMinMax_isMax _ hs1⟩,
    ⟨calcMinMax_isMin _ hs2, calcMinMax_isMax _ hs2⟩,
    ⟨calcMinMax_isMin _ hmf0, calcMinMax_isMax _ hmf0⟩,
    ⟨calcMinMax_isMin _ hmf1, calcMinMax_isMax _ hmf1⟩,
    ⟨calcMinMax_isMin _ hmf2, calcMinMax_isMax _ hmf2⟩,
    rfl, ?_⟩
  simp only [packChunk]
  exact List.map_congr_left fun i _ => pack111011_eq _ _ _

/-- Witness: the amended chunk-packing theorem applied to the concrete
two-splat chunk. -/
theorem packChunk_spec_witness :
    (e8Chunk.x ≠ [] ∧ e8Chunk.y ≠ [] ∧ e8Chunk.z ≠ []
      ∧ e8Chunk.scale_0 ≠ [] ∧ e8Chunk.scale_1 ≠ [] ∧ e8Chunk.scale_2 ≠ []
      ∧ e8Chunk.f_dc_0 ≠ [] ∧ e8Chunk.f_dc_1 ≠ [] ∧ e8Chunk.f_dc_2 ≠ [])
    ∧ ((IsListMin (calcMinMax e8Chunk.x).1 e8Chunk.x
          ∧ IsListMax (calcMinMax e8Chunk.x).2 e8Chunk.x)
      ∧ (IsListMin (calcMinMax e8Chunk.y).1 e8Chunk.y
          ∧ IsListMax (calcMinMax e8Chunk.y).2 e8Chunk.y)
      ∧ (IsListMin (calcMinMax e8Chunk.z).1 e8Chunk.z
          ∧ IsListMax (calcMinMax e8Chunk.z).2 e8Chunk.z)
      ∧ (IsListMin (calcMinMax e8Chunk.scale_0).1 e8Chunk.scale_0
          ∧ IsListMax (calcMinMax e8Chunk.scale_0).2 e8Chunk.scale_0)
      ∧ (IsListMin (calcMinMax e8Chunk.scale_1).1 e8Chunk.scale_1
          ∧ IsListMax (calcMinMax e8Chunk.scale_1).2 e8Chunk.scale_1)
      ∧ (IsListMin (calcMinMax e8Chunk.scale_2).1 e8Chunk.scale_2
          ∧ IsListMax (calcMinMax e8Chunk.scale_2).2 e8Chunk.scale_2)
      ∧ (IsListMin (calcMinMax (e8Chunk.f_dc_0.map fun v => v * SH_C0 + 1 / 2)).1
            (e8Chunk.f_dc_0.map fun v => v * SH_C0 + 1 / 2)
          ∧ IsListMax (calcMinMax (e8Chunk.f_dc_0.map fun v => v * SH_C0 + 1 / 2)).2
            (e8Chunk.f_dc_0.map fun v => v * SH_C0 + 1 / 2))
      ∧ (IsListMin (calcMinMax (e8Chunk.f_dc_1.map fun v => v * SH_C0 + 1 / 2)).1
            (e8Chunk.f_dc_1.map fun v => v * SH_C0 + 1 / 2)
          ∧ IsListMax (calcMinMax (e8Chunk.f_dc_1.map fun v => v * SH_C0 + 1 / 2)).2
            (e8Chunk.f_dc_1.map fun v => v * SH_C0 + 1 / 2))
      ∧ (IsListMin (calcMinMax (e8Chunk.f_dc_2.map fun v => v * SH_C0 + 1 / 2)).1
            (e8Chunk.f_dc_2.map fun v => v * SH_C0 + 1 / 2)
          ∧ IsListMax (calcMinMax (e8Chunk.f_dc_2.map fun v => v * SH_C0 + 1 / 2)).2
            (e8Chunk.f_dc_2.map fun v => v * SH_C0 + 1 / 2))
      ∧ (packChunk e8Chunk).1 =
          [(calcMinMax e8Chunk.x).1, (calcMinMax e8Chunk.y).1, (calcMinMax e8Chunk.z).1,
           (calcMinMax e8Chunk.x).2, (calcMinMax e8Chunk.y).2, (calcMinMax e8Chunk.z).2,
           clamp (calcMinMax e8Chunk.scale_0).1 (-20) 20,
           clamp (calcMinMax e8Chunk.scale_1).1 (-20) 20,
           clamp (calcMinMax e8Chunk.scale_2).1 (-20) 20,
           clamp (calcMinMax e8Chunk.scale_0).2 (-20) 20,
           clamp (calcMinMax e8Chunk.scale_1).2 (-20) 20,
           clamp (calcMinMax e8Chunk.scale_2).2 (-20) 20,
           (calcMinMax (e8Chunk.f_dc_0.map fun v => v * SH_C0 + 1 / 2)).1,
           (calcMinMax (e8Chunk.f_dc_1.map fun v => v * SH_C0 + 1 / 2)).1,
           (calcMinMax (e8Chunk.f_dc_2.map fun v => v * SH_C0 + 1 / 2)).1,
           (calcMinMax (e8Chunk.f_dc_0.map fun v => v * SH_C0 + 1 / 2)).2,
           (calcMinMax (e8Chunk.f_dc_1.map fun v => v * SH_C0 + 1 / 2)).2,
           (calcMinMax (e8Chunk.f_dc_2.map fun v => v * SH_C0 + 1 / 2)).2]
      ∧ (packChunk e8Chunk).2 = (List.range e8Chunk.x.length).map fun i =>
          packUnorm (normalize (e8Chunk.scale_0.getD i 0)
              (clamp (calcMinMax e8Chunk.scale_0).1 (-20) 20)
              (clamp (calcMinMax e8Chunk.scale_0).2 (-20) 20)) 11 * 2 ^ 21
          + packUnorm (normalize (e8Chunk.scale_1.getD i 0)
              (clamp (calcMinMax e8Chunk.scale_1).1 (-20) 20)
              (clamp (calcMinMax e8Chunk.scale_1).2 (-20) 20)) 10 * 2 ^ 11
          + packUnorm (normalize (e8Chunk.scale_2.getD i 0)
              (clamp (calcMinMax e8Chunk.scale_2).1 (-20) 20)
              (clamp (calcMinMax e8Chunk.scale_2).2 (-20) 20)) 11) :=
  ⟨⟨by decide, by decide, by decide, by decide, by decide, by decide,
    by decide, by decide, by decide⟩,
   packChunk_spec e8Chunk (by decide) (by decide) (by decide) (by decide)
     (by decide) (by decide) (by decide) (by decide) (by decide)⟩

-- ### Morton ordering (`generateOrdering`)

/-- JavaScript `Math.min` on possibly non-finite numbers: any `NaN`
operand makes the result `NaN`. -/
def jsMin : JVal → JVal → JVal
  | .nan, _ => .nan
  | _, .nan => .nan
  | .negInf, _ => .negInf
  | _, .negInf => .negInf
  | .posInf, b => b
  | a, .posInf => a
  | .num a, .num b => .num (min a b)

/-- JavaScript multiplication on possibly non-finite numbers:
`0 * Infinity = NaN`. -/
def jsMul : JVal → JVal → JVal
  | .nan, _ => .nan
  | _, .nan => .nan
  | .num a, .num b => .num (a * b)
  | .num a, .posInf => if a = 0 then .nan else if 0 < a then .posInf else .negInf
  | .posInf, .num a => if a = 0 then .nan else if 0 < a then .posInf else .negInf
  | .num a, .negInf => if a = 0 then .nan else if 0 < a then .negInf else .posInf
  | .negInf, .num a => if a = 0 then .nan else if 0 < a then .negInf else .posInf
  | .posInf, .posInf => .posInf
  | .posInf, .negInf => .negInf
  | .negInf, .posInf => .negInf
  | .negInf, .negInf => .posInf

/-- JavaScript truncation toward zero (the integer part of `ToUint32`). -/
def jsTrunc (q : ℚ) : ℤ := if 0 ≤ q then ⌊q⌋ else -⌊-q⌋

/-- JavaScript `>>> 0` (`ToUint32`): `NaN` and the infinities map to 0,
a finite number truncates toward zero and wraps modulo `2^32`. -/
def jsToUint32 : JVal → ℕ
  | .num q => (jsTrunc q % (2 ^ 32 : ℤ)).toNat
  | _ => 0

/-- `1024 / len` in JavaScript: division of `1024` by `+0` gives
`+Infinity`. -/
def jsDiv1024 (len : ℚ) : JVal :=
  if len = 0 then .posInf else .num (1024 / len)

/-- `Part1By2`, the 10-bit interleave used by the Morton encoding. -/
def part1By2 (x : ℕ) : ℕ :=
  let x1 := x &&& 0x000003ff
  let x2 := (x1 ^^^ (x1 <<< 16)) &&& 0xff0000ff
  let x3 := (x2 ^^^ (x2 <<< 8)) &&& 0x0300f00f
  let x4 := (x3 ^^^ (x3 <<< 4)) &&& 0x030c30c3
  (x4 ^^^ (x4 <<< 2)) &&& 0x09249249

/-- `encodeMorton3`. -/
def encodeMorton3 (x y z : ℕ) : ℕ :=
  (part1By2 z <<< 2) + (part1By2 y <<< 1) + part1By2 x

/-- The extent scan of `generate`: `mx = Mx = first value`, then
`if (x < mx) mx = x; else if (x > Mx) Mx = x;`.  An empty index range
leaves the extents `undefined` (then `Mx - mx` is `NaN` and the
`isFinite` guard aborts), modelled by `none`. -/
def axisMinMax (c : List ℚ) : List ℕ → Option (ℚ × ℚ)
  | [] => none
  | r :: rest => some (rest.foldl (fun mM r' =>
      if c.getD r' 0 < mM.1 then (c.getD r' 0, mM.2)
      else if mM.2 < c.getD r' 0 then (mM.1, c.getD r' 0)
      else mM) (c.getD r 0, c.getD r 0))

/-- `Math.min(1023, (x - mx) * mul) >>> 0`. -/
def quant (x mn : ℚ) (mul : JVal) : ℕ :=
  jsToUint32 (jsMin (JVal.num 1023) (jsMul (JVal.num (x - mn)) mul))

/-- The Morton codes `generate` computes for an index range (in range
order); `none` models the non-finite-extents abort.  Over exact
rationals a difference of finite coordinates is always finite, so the
abort only fires for the empty range (`undefined` extents). -/
def mortonCodes (cx cy cz : List ℚ) (inds : List ℕ) : Option (List ℕ) :=
  (axisMinMax cx inds).bind fun mMx =>
  (axisMinMax cy inds).bind fun mMy =>
  (axisMinMax cz inds).map fun mMz =>
    inds.map fun ri =>
      encodeMorton3
        (quant (cx.getD ri 0) mMx.1 (jsDiv1024 (mMx.2 - mMx.1)))
        (quant (cy.getD ri 0) mMy.1 (jsDiv1024 (mMy.2 - mMy.1)))
        (quant (cz.getD ri 0) mMz.1 (jsDiv1024 (mMz.2 - mMz.1)))

/-- The run decomposition of the `while` loop: maximal blocks of equal
adjacent codes, each paired with the index slice it covers. -/
def runs (codes inds : List ℕ) : List (List ℕ) :=
  match codes, inds with
  | [], _ => []
  | _ :: _, [] => []
  | c :: cs, i :: is =>
      (i :: is.take ((cs.takeWhile (fun x => x == c)).length))
        :: runs (cs.drop ((cs.takeWhile (fun x => x == c)).length))
            (is.drop ((cs.takeWhile (fun x => x == c)).length))
termination_by codes.length
decreasing_by simp [List.length_drop]; omega

/-- One call of `generate` on an index range: compute the Morton codes,
stable-sort the indices by code, and return the sorted range together
with the list of sub-ranges the code recurses on (`end - start > 256`);
`none` models the non-finite-extents abort. -/
def generateStep (cx cy cz : List ℚ) (inds : List ℕ) :
    Option (List ℕ × List (List ℕ)) :=
  (mortonCodes cx cy cz inds).map fun codes =>
    let order := sortIdx (fun p => ((codes.getD p 0 : ℕ) : ℚ)) (List.range inds.length)
    ((order.map fun p => inds.getD p 0),
      (runs (order.map fun p => codes.getD p 0) (order.map fun p => inds.getD p 0)).filter
        fun r => 256 < r.length)

theorem foldl_minmax_const (c : List ℚ) (x₀ : ℚ) :
    ∀ rest : List ℕ, (∀ r' ∈ rest, c.getD r' 0 = x₀) →
      rest.foldl (fun mM r' =>
        if c.getD r' 0 < mM.1 then (c.getD r' 0, mM.2)
        else if mM.2 < c.getD r' 0 then (mM.1, c.getD r' 0)
        else mM) (x₀, x₀) = (x₀, x₀)
  | [], _ => rfl
  | b :: t, h => by
    have hb : c.getD b 0 = x₀ := h b (List.mem_cons_self b t)
    simp only [List.foldl_cons, hb, lt_self_iff_false, if_false]
    exact foldl_minmax_const c x₀ t fun r' hr' => h r' (List.mem_cons_of_mem b hr')

theorem axisMinMax_const (c : List ℚ) (x₀ : ℚ) :
    ∀ inds : List ℕ, inds ≠ [] → (∀ r ∈ inds, c.getD r 0 = x₀) →
      axisMinMax c inds = some (x₀, x₀)
  | [], hne, _ => absurd rfl hne
  | r :: rest, _, h => by
    simp only [axisMinMax]
    rw [h r (List.mem_cons_self r rest)]
    congr 1
    exact foldl_minmax_const c x₀ rest fun r' hr' => h r' (List.mem_cons_of_mem r hr')

theorem quant_self (x₀ : ℚ) : quant x₀ x₀ JVal.posInf = 0 := by
  simp [quant, sub_self, jsMul, jsMin, jsToUint32]

theorem encodeMorton3_zero : encodeMorton3 0 0 0 = 0 := by decide

theorem sortIdx_zero_key (v : ℕ → ℚ) :
    ∀ l : List ℕ, (∀ a ∈ l, v a = 0) → sortIdx v l = l
  | [], _ => rfl
  | a :: t, hv => by
    have ht : ∀ b ∈ t, v b = 0 := fun b hb => hv b (List.mem_cons_of_mem a hb)
    have hih := sortIdx_zero_key v t ht
    unfold sortIdx at hih ⊢
    rw [List.foldr_cons, hih]
    cases t with
    | nil => rfl
    | cons b t' =>
      unfold insertIdx
      rw [if_neg]
      rw [hv b (List.mem_cons_of_mem a (List.mem_cons_self b t')),
        hv a (List.mem_cons_self a (b :: t'))]
      exact lt_irrefl 0

theorem map_getD_range (l : List ℕ) (d : ℕ) :
    (List.range l.length).map (fun i => l.getD i d) = l := by
  apply List.ext_getElem
  · simp
  · intro i h1 h2
    simp only [List.getElem_map, List.getElem_range]
    rw [List.getD_eq_getElem?_getD, List.getElem?_eq_getElem h2]
    rfl

theorem getD_replicate_zero (n p : ℕ) : (List.replicate n 0).getD p 0 = 0 := by
  rw [List.getD_eq_getElem?_getD, List.getElem?_replicate]
  split <;> rfl

theorem takeWhile_beq_replicate (c : ℕ) :
    ∀ n : ℕ, (List.replicate n c).takeWhile (fun x => x == c) = List.replicate n c
  | 0 => rfl
  | n + 1 => by
    rw [List.replicate_succ, List.takeWhile_cons]
    simp [takeWhile_beq_replicate c n]

theorem runs_replicate (l : List ℕ) (c : ℕ) (h : l ≠ []) :
    runs (List.replicate l.length c) l = [l] := by
  obtain ⟨i, is, rfl⟩ := List.exists_cons_of_ne_nil h
  rw [show (i :: is).length = is.length + 1 from rfl, List.replicate_succ]
  unfold runs
  rw [takeWhile_beq_replicate, List.length_replicate, List.take_length,
    List.drop_eq_nil_of_le (by rw [List.length_replicate]),
    List.drop_eq_nil_of_le (le_refl _)]
  have h0 : runs [] [] = [] := by
    unfold runs
    rfl
  rw [h0]

/-- C4: the recursive Morton ordering does NOT terminate on every table.
On a range of more than 256 splats at one identical position the
recomputed extents are all zero — which is finite, so the `isFinite`
guard does not abort — and every quantized coordinate follows the
`0 * Infinity = NaN`, `min(1023, NaN) = NaN`, `NaN >>> 0 = 0` path to
Morton code 0; the stable sort leaves the range unchanged and the single
run of equal codes is the whole range, longer than 256, so `generate`
recurses on exactly its own input, forever. -/
theorem generateStep_identical_loop (cx cy cz : List ℚ) (inds : List ℕ)
    (x₀ y₀ z₀ : ℚ)
    (hx : ∀ r ∈ inds, cx.getD r 0 = x₀)
    (hy : ∀ r ∈ inds, cy.getD r 0 = y₀)
    (hz : ∀ r ∈ inds, cz.getD r 0 = z₀)
    (hlen : 256 < inds.length) :
    generateStep cx cy cz inds = some (inds, [inds]) := by
  have hne : inds ≠ [] := by
    intro h
    rw [h] at hlen
    simp at hlen
  have hcodes : mortonCodes cx cy cz inds = some (List.replicate inds.length 0) := by
    unfold mortonCodes
    rw [axisMinMax_const cx x₀ inds hne hx, axisMinMax_const cy y₀ inds hne hy,
      axisMinMax_const cz z₀ inds hne hz, Option.some_bind', Option.some_bind',
      Option.map_some']
    congr 1
    rw [List.eq_replicate_iff]
    refine ⟨by simp, ?_⟩
    intro b hb
    obtain ⟨ri, hri, rfl⟩ := List.mem_map.mp hb
    dsimp only
    rw [hx ri hri, hy ri hri, hz ri hri, sub_self x₀, sub_self y₀, sub_self z₀]
    rw [show jsDiv1024 0 = JVal.posInf from by simp [jsDiv1024]]
    rw [quant_self x₀, quant_self y₀, quant_self z₀]
    exact encodeMorton3_zero
  have hget0 : ∀ p : ℕ, (List.replicate inds.length 0).getD p 0 = 0 := by
    intro p
    rw [List.getD_eq_getElem?_getD, List.getElem?_replicate]
    split <;> rfl
  have horder : sortIdx (fun p => (((List.replicate inds.length 0).getD p 0 : ℕ) : ℚ))
      (List.range inds.length) = List.range inds.length := by
    apply sortIdx_zero_key
    intro a _
    rw [hget0 a]
    norm_num
  have hsc : (List.range inds.length).map
        (fun p => (List.replicate inds.length (0 : ℕ)).getD p 0)
      = List.replicate inds.length 0 := by
    have h := map_getD_range (List.replicate inds.length (0 : ℕ)) 0
    rwa [List.length_replicate] at h
  unfold generateStep
  rw [hcodes, Option.map_some']
  beta_reduce
  rw [horder]
  dsimp only
  rw [map_getD_range inds 0, hsc, runs_replicate inds 0 hne]
  simp [List.filter_cons, List.filter_nil, hlen]

set_option maxRecDepth 8000 in
/-- Witness: 257 splats all at the origin — one `generate` step returns
the very same 257-index range as its sole recursion sub-range. -/
theorem generateStep_identical_loop_witness :
    ((∀ r ∈ List.range 257, (List.replicate 257 (0 : ℚ)).getD r 0 = 0)
      ∧ 256 < (List.range 257).length)
    ∧ generateStep (List.replicate 257 0) (List.replicate 257 0) (List.replicate 257 0)
        (List.range 257) = some (List.range 257, [List.range 257]) :=
  ⟨⟨by decide, by decide⟩,
   generateStep_identical_loop (List.replicate 257 0) (List.replicate 257 0)
     (List.replicate 257 0) (List.range 257) 0 0 0
     (by decide) (by decide) (by decide) (by decide)⟩

end SplatTransform
